import Mathlib

/-!
Verification of the UnifiedShopifyProductGenerator core logic.

This file shallowly embeds the core data model and operations of the
repository and proves the spec's testable properties about them:

* the filename codec `parse_image_filename` (src/main.py) and the preview
  encoder `update_preview` (src/filename_path_builder.py);
* the category tree `build_tree` / `flatten_tree` / `build_nav_html`
  (src/menu_editor.py) and the nav-markup extractor
  `extract_paths_from_nav` (src/product_category_path_extractor.py);
* the variant-id matcher (src/backfill_variant_ids.py);
* the node dialog validation (src/menu_editor.py) and the cascading
  dropdown option computation (src/filename_path_builder.py).

Python strings are modelled as Lean `String`/`List Char` restricted to the
ASCII range where Python's Unicode-aware predicates matter (the theorems
that depend on such predicates carry explicit ASCII hypotheses).  Python
`float` values are modelled exactly as rationals (plus inf/nan markers);
IEEE-754 rounding is not modelled, every price in scope is compared as the
decimal value denoted by its source text.
-/

namespace UnifiedShopify

/-! ## Python string primitives (ASCII domain) -/

/-- ASCII whitespace recognized by Python's `str.strip()` (restricted to
the ASCII range; Unicode whitespace is outside the model's domain). -/
def isPySpace (c : Char) : Bool :=
  c = ' ' || c = '\t' || c = '\n' || c = '\x0b' || c = '\x0c' || c = '\r'

/-- `str.strip()` on a character list. -/
def pyStripL (l : List Char) : List Char :=
  ((l.dropWhile isPySpace).reverse.dropWhile isPySpace).reverse

/-- `str.strip()`. -/
def pyStrip (s : String) : String := ⟨pyStripL s.data⟩

/-- One step of Python's `str.title()`: a character is uppercased when the
previous character is not cased (for ASCII: not a letter), and lowercased
otherwise.  `prevCased` tracks whether the previous character was a letter. -/
def pyTitleAux : Bool → List Char → List Char
  | _, [] => []
  | prevCased, c :: rest =>
    (if prevCased then c.toLower else c.toUpper) :: pyTitleAux c.isAlpha rest

/-- `str.title()` on a character list (ASCII model). -/
def pyTitleL (l : List Char) : List Char := pyTitleAux false l

/-- `str.title()`. -/
def pyTitle (s : String) : String := ⟨pyTitleL s.data⟩

/-- `str.replace(a, b)` for single-character `a`, `b` on a character list. -/
def replaceL (a b : Char) (l : List Char) : List Char :=
  l.map fun c => if c = a then b else c

/-- `str.replace(a, b)` for single-character `a`, `b`. -/
def replaceChar (a b : Char) (s : String) : String := ⟨replaceL a b s.data⟩

/-- Python `str.split(sep)` for a single-character separator: splitting the
empty string yields `[""]`, and every separator occurrence produces a new
(possibly empty) field. -/
def splitOnChar (sep : Char) : List Char → List (List Char)
  | [] => [[]]
  | c :: rest =>
    if c = sep then [] :: splitOnChar sep rest
    else
      match splitOnChar sep rest with
      | r :: rs => (c :: r) :: rs
      | [] => [[c]]

/-- `os.path.basename` (POSIX): everything after the last `/`. -/
def basenameL (l : List Char) : List Char :=
  (splitOnChar '/' l).getLastD []

/-- The stem part of `os.path.splitext` applied to a basename: drop the
suffix starting at the last `.`, unless every character before that dot is
itself a dot (then there is no extension). -/
def splitextStem (l : List Char) : List Char :=
  let r := l.reverse
  let rest := r.dropWhile (fun c => c ≠ '.')
  match rest with
  | [] => l
  | _ :: stemRev => if stemRev.any (fun c => c ≠ '.') then stemRev.reverse else l

/-! ## Python `float(str)` (decimal model) -/

/-- The result of Python's `float(str)`: an exact decimal value, or one of
the special values `inf`, `-inf`, `nan`. -/
inductive PyFloat where
  | val (q : ℚ)
  | inf
  | neginf
  | nan
deriving DecidableEq, Repr

/-- Value of a (non-empty) run of decimal digits. -/
def digitsToNat (l : List Char) : Nat :=
  l.foldl (fun a c => 10 * a + (c.toNat - '0'.toNat)) 0

/-- Parse the optional exponent suffix (`e`/`E`, optional sign, digits) of a
float literal.  The mantissa parsed so far is carried as the
numerator/denominator pair `(num, den)` and a positive (negative) exponent
scales the numerator (denominator); the exact rational value
`num / den * 10^±e` is assembled by a single `mkRat` in `pyFloatL`. -/
def parseExpPart (num den : Nat) : List Char → Option (Nat × Nat)
  | [] => some (num, den)
  | c :: r =>
    if c = 'e' || c = 'E' then
      let signed : Bool × List Char :=
        match r with
        | '+' :: t => (false, t)
        | '-' :: t => (true, t)
        | t => (false, t)
      let ds := signed.2.takeWhile Char.isDigit
      let r3 := signed.2.dropWhile Char.isDigit
      if ds = [] ∨ r3 ≠ [] then none
      else
        some (if signed.1 then (num, den * 10 ^ digitsToNat ds)
              else (num * 10 ^ digitsToNat ds, den))
    else none

/-- Parse the unsigned body of a float literal: `digits [. digits]` or
`. digits`, followed by an optional exponent; the decimal `ip.fp` denotes
the exact rational `(ip * 10^|fp| + fp) / 10^|fp|`. -/
def parseUnsignedBody (l : List Char) : Option (Nat × Nat) :=
  let ip := l.takeWhile Char.isDigit
  let r1 := l.dropWhile Char.isDigit
  match r1 with
  | '.' :: r2 =>
    let fp := r2.takeWhile Char.isDigit
    let r3 := r2.dropWhile Char.isDigit
    if ip = [] ∧ fp = [] then none
    else parseExpPart (digitsToNat ip * 10 ^ fp.length + digitsToNat fp) (10 ^ fp.length) r3
  | _ => if ip = [] then none else parseExpPart (digitsToNat ip) 1 r1

/-- Python `float(str)` on a character list: strip surrounding whitespace,
an optional sign, then either (case-insensitively) `inf`/`infinity`/`nan`
or a decimal literal.  Digit-group underscores are omitted from the model:
every string this model is applied to arises from splitting on `_`, so it
never contains one. -/
def pyFloatL (s : List Char) : Option PyFloat :=
  let l := pyStripL s
  let signed : Bool × List Char :=
    match l with
    | '+' :: t => (false, t)
    | '-' :: t => (true, t)
    | t => (false, t)
  let lb := signed.2.map Char.toLower
  if lb = "inf".data ∨ lb = "infinity".data then
    some (if signed.1 then .neginf else .inf)
  else if lb = "nan".data then some .nan
  else
    (parseUnsignedBody signed.2).map fun nd =>
      .val (mkRat (if signed.1 then -(nd.1 : Int) else (nd.1 : Int)) nd.2)

/-- Python `float(str)`. -/
def pyFloat (s : String) : Option PyFloat := pyFloatL s.data

/-! ## FilenameCodec: `parse_image_filename` (src/main.py) and
`FilenameSuggester.update_preview` (src/filename_path_builder.py) -/

/-- The two `ValueError`s raised by `parse_image_filename`:
`"Filename too short"` (fewer than 4 `_`-separated segments) and
`"No valid price found"` (no segment right of the first parses as a float). -/
inductive ParseErr where
  | tooShort
  | noPrice
deriving DecidableEq, Repr

/-- The dictionary returned by `parse_image_filename`.  The source dict also
carries a `"handle"` entry, `"-".join(parts[:price_idx]).lower()` plus a
6-hex-character SHA-1 digest of the whole filename; the digest is an opaque
external hash, and no claim concerns the handle, so it is omitted here. -/
structure ParsedProduct where
  title : String
  price : PyFloat
  categories : List String
  tags : List String
  extra_notes : String
deriving DecidableEq, Repr

/-- The fixed ordinal tag labels of `parse_image_filename`. -/
def tag_labels : List String :=
  ["category", "subcategory1", "subcategory2", "subcategory3", "subcategory4"]

/-- Tag generation: each category segment is paired with its ordinal label;
segments beyond the five labels are dropped (the `i < len(tag_labels)`
guard), which `zip`'s truncation models. -/
def mkTags (categories : List String) : List String :=
  (tag_labels.zip categories).map fun lc => lc.1 ++ ":" ++ lc.2

/-- The price scan of `parse_image_filename`: try `float(parts[i])` for
`i = len(parts)-1, ..., 1` and stop at the first success. -/
def findPriceIdx (parts : List (List Char)) : Option (Nat × PyFloat) :=
  ((List.range' 1 (parts.length - 1)).reverse).findSome? fun i =>
    (pyFloatL (parts.getD i [])).map fun q => (i, q)

/-- Decidable equality for `Except` results (not derived in core). -/
instance {e a : Type} [DecidableEq e] [DecidableEq a] : DecidableEq (Except e a)
  | .error x, .error y =>
    if h : x = y then isTrue (h ▸ rfl) else isFalse fun hh => h (Except.error.inj hh)
  | .error _, .ok _ => isFalse Except.noConfusion
  | .ok _, .error _ => isFalse Except.noConfusion
  | .ok x, .ok y =>
    if h : x = y then isTrue (h ▸ rfl) else isFalse fun hh => h (Except.ok.inj hh)

/-- The body of `parse_image_filename` after `name.split('_')`: length
check, price scan, and field extraction. -/
def parseParts (parts : List (List Char)) : Except ParseErr ParsedProduct :=
  if parts.length < 4 then .error .tooShort
  else
    match findPriceIdx parts with
    | none => .error .noPrice
    | some (price_idx, price) =>
      let extra_notes :=
        if price_idx < parts.length - 1 then
          replaceL '-' ' ' (List.intercalate ['_'] (parts.drop (price_idx + 1)))
        else []
      let title := pyTitleL (replaceL '-' ' ' (parts.getD (price_idx - 1) []))
      let categories := parts.take (price_idx - 1)
      .ok { title := ⟨title⟩
            price := price
            categories := categories.map fun p => ⟨p⟩
            tags := mkTags (categories.map fun p => ⟨p⟩)
            extra_notes := ⟨extra_notes⟩ }

/-- `parse_image_filename(filename)` from src/main.py:
`os.path.splitext(os.path.basename(filename))[0].split('_')`, then the
length check, price scan and field extraction of `parseParts`. -/
def parse_image_filename (filename : String) : Except ParseErr ParsedProduct :=
  parseParts (splitOnChar '_' (splitextStem (basenameL filename.data)))

/-- `FilenameSuggester.update_preview`: join the selected category path, the
title (spaces to hyphens), the price and the notes (spaces to hyphens) with
`_` and append `.png`; with no selected categories the preview is empty. -/
def update_preview (cat_path : List String) (title price notes : String) : String :=
  if cat_path = [] then ""
  else
    let title' := replaceL ' ' '-' title.data
    let notes' := replaceL ' ' '-' notes.data
    let parts :=
      cat_path.map String.data ++
      (if title' ≠ [] then [title'] else []) ++
      (if price.data ≠ [] then [price.data] else []) ++
      (if notes' ≠ [] then [notes'] else [])
    ⟨List.intercalate ['_'] parts ++ ".png".data⟩

/-! ## CategoryTree: `build_tree` / `flatten_tree` (src/menu_editor.py)

The nested Python dicts `{key: {"key":…, "alias":…, "children":…}}` are
modelled by a list of nodes in insertion order (Python 3.7+ dicts preserve
insertion order; new keys are appended at the end). -/

/-- A category node: key, display alias, ordered children. -/
inductive CatNode where
  | mk (key : String) (nodeAlias : String) (children : List CatNode)
deriving Repr

/-- The node's key. -/
def CatNode.key : CatNode → String
  | .mk k _ _ => k

/-- The node's alias. -/
def CatNode.nodeAlias : CatNode → String
  | .mk _ a _ => a

/-- The node's children. -/
def CatNode.children : CatNode → List CatNode
  | .mk _ _ c => c

/-- The default alias of `build_tree` (line 53 of src/menu_editor.py):
`aliases.get(level, key.replace('-',' ').title()) if key else
aliases.get("", "(blank)")`. -/
def aliasFor (aliases : List (String × String)) (k : String) : String :=
  if k ≠ "" then (aliases.lookup k).getD (pyTitle (replaceChar '-' ' ' k))
  else (aliases.lookup "").getD "(blank)"

/-- One path insertion of `build_tree`'s inner loop: walk down the levels;
a missing key is appended at the end of the current level with an empty
child dict; an existing key is descended into unchanged. -/
def insertPath (aliases : List (String × String)) : List String → List CatNode → List CatNode
  | [], t => t
  | k :: rest, [] => [.mk k (aliasFor aliases k) (insertPath aliases rest [])]
  | k :: rest, n :: ns =>
    if n.key = k then .mk n.key n.nodeAlias (insertPath aliases rest n.children) :: ns
    else n :: insertPath aliases (k :: rest) ns
termination_by p t => (p.length, t.length)

/-- `build_tree(paths, aliases)` from src/menu_editor.py. -/
def build_tree (paths : List (List String)) (aliases : List (String × String)) : List CatNode :=
  paths.foldl (fun t p => insertPath aliases p t) []

/-- `flatten_tree(tree, prefix)`: all canonical key paths from root to
leaf, in child order. -/
def flatten_tree : List CatNode → List String → List (List String)
  | [], _ => []
  | .mk k _ c :: ns, pfx =>
    (if c.isEmpty then [pfx ++ [k]] else flatten_tree c (pfx ++ [k])) ++ flatten_tree ns pfx

/-- Sibling keys are pairwise distinct at every level (the tree invariant
that both the editor dialog and `build_tree` maintain). -/
def wfb : List CatNode → Bool
  | [] => true
  | .mk k _ c :: ns => !(ns.any fun m => m.key == k) && wfb c && wfb ns

/-- A tree with every alias regenerated to its `build_tree` default; this is
the tree that rebuilding from a flattened path list produces. -/
def defaultize (aliases : List (String × String)) : List CatNode → List CatNode
  | [] => []
  | .mk k _ c :: ns => .mk k (aliasFor aliases k) (defaultize aliases c) :: defaultize aliases ns

/-- First node with the given key at this level (Python dict lookup). -/
def lookupChild (t : List CatNode) (k : String) : Option CatNode :=
  t.find? fun n => n.key == k

/-- The children list of the node reached by walking a key path. -/
def childrenAt : List CatNode → List String → Option (List CatNode)
  | t, [] => some t
  | t, k :: rest =>
    match lookupChild t k with
    | some n => childrenAt n.children rest
    | none => none

/-- Does the node reached by walking `p` have a child with key `k`? -/
def hasChildKey (t : List CatNode) (p : List String) (k : String) : Bool :=
  match childrenAt t p with
  | some c => c.any fun n => n.key == k
  | none => false

/-- Height of the tree in levels. -/
def depthT : List CatNode → Nat
  | [] => 0
  | .mk _ _ c :: ns => max (1 + depthT c) (depthT ns)

/-! ## MenuMarkupCodec: `build_nav_html` (src/menu_editor.py) and
`extract_paths_from_nav` (src/product_category_path_extractor.py)

`build_nav_html` emits nested `<ul>`/`<li>` markup; the extractor parses it
back with BeautifulSoup.  The element tree BeautifulSoup recovers from this
generated markup is modelled directly: a non-leaf node renders as an `<li>`
holding a labelled `<button>` plus a `<ul class="submenu">` (a `group`
element), a leaf renders as an `<li>` holding an `<a class="nav-link">`
(a `link` element).  The href strings themselves are built exactly as the
source's f-strings build them. -/

/-- The `<li>` contents that `build_nav_html` generates. -/
inductive NavElem where
  | group (label : String) (children : List NavElem)
  | link (href : String) (label : String)
deriving Repr

/-- The `subcategory{sub_idx}={val}` URL parts of `build_nav_html`'s loop:
blank keys are skipped and do not advance the numbering. -/
def subPartsL (idx : Nat) : List String → List (List Char)
  | [] => []
  | v :: vs =>
    if v ≠ "" then ("subcategory".data ++ (toString idx).data ++ '=' :: v.data) :: subPartsL (idx + 1) vs
    else subPartsL idx vs

/-- The link target built for a leaf with full key path `allKeys`:
`category.html` plus a query string of the non-blank keys. -/
def navUrlL (allKeys : List String) : List Char :=
  let headPart : List (List Char) :=
    match allKeys with
    | [] => []
    | k0 :: _ => if k0 ≠ "" then ["category".data ++ '=' :: k0.data] else []
  let parts := headPart ++ subPartsL 1 allKeys.tail
  "category.html".data ++ (if parts.isEmpty then [] else '?' :: List.intercalate ['&'] parts)

/-- The link target as a string. -/
def navUrl (allKeys : List String) : String := ⟨navUrlL allKeys⟩

/-- `build_nav_html(tree, indent, parent_keys)` reduced to the element tree
it generates (indentation and fixed chrome carry no path content). -/
def build_nav_ast : List CatNode → List String → List NavElem
  | [], _ => []
  | .mk k a c :: ns, parentKeys =>
    (if c.isEmpty then NavElem.link (navUrl (parentKeys ++ [k])) a
     else NavElem.group a (build_nav_ast c (parentKeys ++ [k]))) :: build_nav_ast ns parentKeys

/-- `\w` of Python's `re` or `-`, the value character class of the category
link pattern (ASCII model). -/
def wordChar (c : Char) : Bool := c.isAlphanum || c = '_' || c = '-'

/-- Match `(category|subcategory\d*)=` at the current position, returning
the captured parameter name and the remainder.  `re` tries the `category`
alternative first; the greedy `\d*` needs no backtracking here because a
digit can never satisfy the following `=`. -/
def matchNameEq (l : List Char) : Option (String × Nat) :=
  if "category=".data.isPrefixOf l then some ("category", 9)
  else if "subcategory".data.isPrefixOf l then
    let ds := (l.drop 11).takeWhile Char.isDigit
    match l.drop (11 + ds.length) with
    | '=' :: _ => some ("subcategory" ++ ⟨ds⟩, 11 + ds.length + 1)
    | _ => none
  else none

/-- `re.findall(r'[?&](category|subcategory\d*)=([\w\-]+)', href)`: scan
left to right; a failed attempt advances one character, a successful match
resumes after the captured value. -/
def findallCat : List Char → List (String × String)
  | [] => []
  | c :: rest =>
    if c = '?' || c = '&' then
      match matchNameEq rest with
      | some nk =>
        let w := (rest.drop nk.2).takeWhile wordChar
        if w.isEmpty then findallCat rest
        else (nk.1, ⟨w⟩) :: findallCat (rest.drop (nk.2 + w.length))
      | none => findallCat rest
    else findallCat rest
termination_by l => l.length
decreasing_by all_goals (simp [List.length_drop]; try omega)

/-- Stable insertion into a list sorted by parameter name; an element is
placed before the first strictly greater name, so elements with equal names
keep their relative order (Python's `sorted` is stable). -/
def insPair (x : String × String) : List (String × String) → List (String × String)
  | [] => [x]
  | y :: ys => if y.1 < x.1 then y :: insPair x ys else x :: y :: ys

/-- `sorted(category_match, key=lambda x: x[0])`. -/
def sortPairs : List (String × String) → List (String × String)
  | [] => []
  | x :: xs => insPair x (sortPairs xs)

/-- Substring containment, for `"category.html" in a["href"]`. -/
def listContains (pat : List Char) : List Char → Bool
  | [] => pat.isEmpty
  | c :: rest => pat.isPrefixOf (c :: rest) || listContains pat rest

/-- The first `<a href=…>` in document order among these elements and their
descendants (`li.find("a", href=True)` searches the whole subtree). -/
def firstLink : List NavElem → Option String
  | [] => none
  | .link href _ :: _ => some href
  | .group _ c :: rest =>
    match firstLink c with
    | some h => some h
    | none => firstLink rest

/-- `walk_menu` of `extract_paths_from_nav`: for each `<li>`, take its first
descendant link; if its href contains `category.html` and the pattern finds
at least one pair, append the values sorted by parameter name; then recurse
into the `<li>`'s submenu if it has one. -/
def walk_menu : List NavElem → List (List String)
  | [] => []
  | e :: rest =>
    let href? : Option String :=
      match e with
      | .link h _ => some h
      | .group _ c => firstLink c
    let fromLink : List (List String) :=
      match href? with
      | some h =>
        if listContains "category.html".data h.data then
          let ms := findallCat h.data
          if ms.isEmpty then [] else [(sortPairs ms).map fun p => p.2]
        else []
      | none => []
    let fromSub : List (List String) :=
      match e with
      | .group _ c => walk_menu c
      | .link _ _ => []
    fromLink ++ fromSub ++ walk_menu rest

/-- The path of the first leaf in document order: the leftmost root-to-leaf
walk, i.e. the leaf whose link `li.find("a", href=True)` returns for a
group's `<li>`. -/
def leftLeaf : List CatNode → List String
  | [] => []
  | .mk k _ c :: _ => if c.isEmpty then [k] else k :: leftLeaf c

/-- The query-string tail joined with leading `&` separators; `?p0&p1&…`
is `'?' :: p0 ++ ampJoin [p1, …]`. -/
def ampJoin : List (List Char) → List Char
  | [] => []
  | p :: ps => '&' :: (p ++ ampJoin ps)

/-- The parameter pairs the pattern recovers from the subcategory part of a
generated link: `subcategory{idx}={v}` onward. -/
def expPairs (idx : Nat) : List String → List (String × String)
  | [] => []
  | v :: vs => ("subcategory" ++ toString idx, v) :: expPairs (idx + 1) vs

/-- Every key is non-blank and drawn from the URL-safe class; this is the
hypothesis under which nav rendering loses no tree level. -/
def keysValid : List CatNode → Bool
  | [] => true
  | .mk k _ c :: ns => (!k.isEmpty && k.data.all wordChar) && keysValid c && keysValid ns

/-! ## RecordMatcher: `VariantBackfillGUI._backfill` (src/backfill_variant_ids.py) -/

/-- One variant of an external (Shopify) product: its price (`float(...)`
of the API's decimal string) and `str(...)` of its id. -/
structure ShopifyVariant where
  price : ℚ
  id : String
deriving DecidableEq, Repr

/-- An external product record: title plus variants. -/
structure ShopifyProduct where
  title : String
  variants : List ShopifyVariant
deriving DecidableEq, Repr

/-- A local record of products.js: `id`, `name`, `price`,
`shopifyVariantId`, and the remaining display fields, which the matcher
never reads or writes, bundled opaquely. -/
structure LocalProduct where
  id : String
  name : String
  price : ℚ
  shopifyVariantId : String
  display : List (String × String)
deriving DecidableEq, Repr

/-- The index insertion order of `_backfill`'s double loop:
`(prod["title"].strip(), float(variant["price"])) → str(variant["id"])`
for every variant of every product. -/
def allPairs (prods : List ShopifyProduct) : List ((String × ℚ) × String) :=
  prods.flatMap fun prod => prod.variants.map fun v => ((pyStrip prod.title, v.price), v.id)

/-- The `shopify_map` dict: repeated assignment, so a later pair with the
same key overwrites an earlier one.  Modelled as an association list with
the newest entry in front; `List.lookup` then returns the latest binding,
exactly as `dict.get` does. -/
def build_shopify_map (prods : List ShopifyProduct) : List ((String × ℚ) × String) :=
  prods.foldl (fun m prod => prod.variants.foldl (fun m v => ((pyStrip prod.title, v.price), v.id) :: m) m) []

/-- The matching loop of `_backfill`: output products (in order), the
`not_found` id list, and the `updated` counter.  Python's
`if variant_id:` is false both for a missing key (`None`) and for an empty
id string, so both fall into the `not_found` branch. -/
def backfill (m : List ((String × ℚ) × String)) : List LocalProduct → List LocalProduct × List String × Nat
  | [] => ([], [], 0)
  | p :: rest =>
    let out := backfill m rest
    match List.lookup (pyStrip p.name, p.price) m with
    | some vid =>
      if vid ≠ "" then ({ p with shopifyVariantId := vid } :: out.1, out.2.1, out.2.2 + 1)
      else (p :: out.1, p.id :: out.2.1, out.2.2)
    | none => (p :: out.1, p.id :: out.2.1, out.2.2)

/-- The per-record effect of the matching loop: a looked-up non-empty id is
written to `shopifyVariantId`; a missing key or an empty looked-up id
leaves the record untouched. -/
def applyMatch (m : List ((String × ℚ) × String)) (p : LocalProduct) : LocalProduct :=
  match List.lookup (pyStrip p.name, p.price) m with
  | some vid => if vid ≠ "" then { p with shopifyVariantId := vid } else p
  | none => p

/-- Does the record land in `not_found`?  True when its key is absent from
the index or the looked-up id is the empty string. -/
def isUnmatched (m : List ((String × ℚ) × String)) (p : LocalProduct) : Bool :=
  match List.lookup (pyStrip p.name, p.price) m with
  | some vid => vid == ""
  | none => true

/-! ## `NodeDialog.validate` (src/menu_editor.py) -/

/-- Outcome of `NodeDialog.validate` followed by `apply`: the messagebox
error shown, or the `(key, alias)` pair the dialog commits. -/
inductive ValidateResult where
  | invalidKey
  | duplicateKey
  | emptyAlias
  | ok (key : String) (label : String)
deriving DecidableEq, Repr

/-- `NodeDialog.validate`: the key is stripped; a non-blank stripped key
must contain no space and only `isalnum()` or `-`/`_` characters (ASCII
model of `str.isalnum`); a new node's key must not already be a sibling
key; the stripped alias must be non-empty. -/
def nodeDialogValidate (keyInput aliasInput : String) (isNew : Bool)
    (siblingKeys : List String) : ValidateResult :=
  let key := pyStrip keyInput
  if key ≠ "" ∧ (' ' ∈ key.data ∨ ¬ key.data.all fun c => c.isAlphanum || c = '-' || c = '_') then
    .invalidKey
  else if isNew ∧ key ∈ siblingKeys then .duplicateKey
  else if pyStrip aliasInput = "" then .emptyAlias
  else .ok key (pyStrip aliasInput)

/-- The spec's URL-safe character class `[A-Za-z0-9_-]`, written directly
as character ranges for comparison with the code's
`c.isalnum() or c in "-_"` test. -/
def urlSafeChar (c : Char) : Bool :=
  ('A' ≤ c && c ≤ 'Z') || ('a' ≤ c && c ≤ 'z') || ('0' ≤ c && c ≤ '9') || c = '-' || c = '_'

/-! ## Cascading dropdowns: `FilenameSuggester.build_cascading_dropdowns`
(src/filename_path_builder.py) -/

/-- Stable insertion sort on strings (Python's `sorted`). -/
def insStr (x : String) : List String → List String
  | [] => [x]
  | y :: ys => if y < x then y :: insStr x ys else x :: y :: ys

/-- `sorted` on strings. -/
def sortStr : List String → List String
  | [] => []
  | x :: xs => insStr x (sortStr xs)

/-- The option computation of `build_cascading_dropdowns`: collect
`path[len(selected)]` over paths whose prefix equals the selection and
which are strictly longer, as a sorted set (`sorted(set(...))` modelled as
sort of the deduplicated collection — same elements, sorted). -/
def nextOptions (validPaths : List (List String)) (selected : List String) : List String :=
  sortStr (((validPaths.filter fun path =>
    path.take selected.length = selected ∧ selected.length < path.length).map
      fun path => path.getD selected.length "").dedup)

/-! # Theorems -/

/-! ## Generic list/sorting lemmas -/

theorem mem_insStr (a x : String) (l : List String) :
    a ∈ insStr x l ↔ a = x ∨ a ∈ l := by
  induction l with
  | nil => simp [insStr]
  | cons y ys ih =>
    by_cases h : y < x <;> simp [insStr, h, ih] <;> tauto

theorem mem_sortStr (a : String) (l : List String) : a ∈ sortStr l ↔ a ∈ l := by
  induction l with
  | nil => simp [sortStr]
  | cons x xs ih => simp [sortStr, mem_insStr, ih]

/-! ## C9: cascading dropdown options -/

/-- **C9.** For any canonical path set and selected prefix `P` that is a
strict prefix of some canonical path, the computed next-level option set is
exactly the set of distinct immediate next segments among paths whose
prefix equals `P`; and for a prefix of some canonical path, an empty option
set implies `P` is itself a complete canonical path. -/
theorem C9_cascading_options (paths : List (List String)) (P : List String) :
    ((∃ q ∈ paths, q.take P.length = P ∧ P.length < q.length) →
      ∀ v, v ∈ nextOptions paths P ↔
        ∃ q ∈ paths, q.take P.length = P ∧ P.length < q.length ∧ q.getD P.length "" = v) ∧
    ((∃ q ∈ paths, q.take P.length = P) → nextOptions paths P = [] → P ∈ paths) := by
  have hmem : ∀ v, v ∈ nextOptions paths P ↔
      ∃ q ∈ paths, q.take P.length = P ∧ P.length < q.length ∧ q.getD P.length "" = v := by
    intro v
    simp only [nextOptions, mem_sortStr, List.mem_dedup, List.mem_map, List.mem_filter]
    constructor
    · rintro ⟨q, ⟨hq, hcond⟩, hv⟩
      have hc := of_decide_eq_true hcond
      exact ⟨q, hq, hc.1, hc.2, hv⟩
    · rintro ⟨q, hq, h1, h2, hv⟩
      exact ⟨q, ⟨hq, decide_eq_true ⟨h1, h2⟩⟩, hv⟩
  refine ⟨fun _ => hmem, ?_⟩
  rintro ⟨q, hq, htake⟩ hempty
  by_cases hlen : P.length < q.length
  · have : q.getD P.length "" ∈ nextOptions paths P :=
      (hmem _).mpr ⟨q, hq, htake, hlen, rfl⟩
    rw [hempty] at this
    exact absurd this (List.not_mem_nil _)
  · have : q.take P.length = q := List.take_of_length_le (Nat.le_of_not_lt hlen)
    rw [this] at htake
    exact htake ▸ hq

theorem C9_cascading_options_witness :
    "b" ∈ nextOptions [["a", "b"]] ["a"] ∧
      ["a", "b"] ∈ ([["a", "b"], ["a"]] : List (List String)) :=
  ⟨((C9_cascading_options [["a", "b"]] ["a"]).1 (by decide) "b").mpr (by decide),
   (C9_cascading_options [["a", "b"], ["a"]] ["a", "b"]).2 (by decide) (by decide)⟩

/-! ## C8: key validation in the node dialog -/

theorem urlSafe_eq (c : Char) :
    (c.isAlphanum || c = '-' || c = '_') = urlSafeChar c := rfl

/-- **C8 (counterexample).** The key input `" a"` contains whitespace, so
the claim requires `InvalidKeyError`; the dialog strips the input first and
accepts it, committing the key `"a"`. -/
theorem C8_validate_cex :
    nodeDialogValidate " a" "X" true [] = .ok "a" "X" ∧
      ' ' ∈ " a".data ∧ nodeDialogValidate " a" "X" true [] ≠ .invalidKey := by
  decide

/-- **C8 (amended).** After surrounding whitespace is stripped from the key
input, interactive validation (`is_new = True`) fails with
`InvalidKeyError` exactly when the stripped key is non-blank and contains a
character outside `[A-Za-z0-9_-]` (whitespace is such a character; the
blank key is exempt), and fails with `DuplicateKeyError` exactly when the
stripped key passes that check but already exists among the sibling keys.
The ASCII hypothesis marks the model's domain: `str.isalnum` also accepts
non-ASCII alphanumerics, which the embedding does not model. -/
theorem C8_validate (keyInput aliasInput : String) (siblings : List String)
    (hascii : ∀ c ∈ (pyStrip keyInput).data, c.toNat < 128) :
    (nodeDialogValidate keyInput aliasInput true siblings = .invalidKey ↔
      pyStrip keyInput ≠ "" ∧ ¬ ∀ c ∈ (pyStrip keyInput).data, urlSafeChar c = true) ∧
    (nodeDialogValidate keyInput aliasInput true siblings = .duplicateKey ↔
      (pyStrip keyInput = "" ∨ ∀ c ∈ (pyStrip keyInput).data, urlSafeChar c = true) ∧
        pyStrip keyInput ∈ siblings) := by
  clear hascii
  have hcond : (' ' ∈ (pyStrip keyInput).data ∨
      ¬ (pyStrip keyInput).data.all (fun c => c.isAlphanum || c = '-' || c = '_') = true) ↔
      ¬ ∀ c ∈ (pyStrip keyInput).data, urlSafeChar c = true := by
    rw [List.all_eq_true]
    simp only [urlSafe_eq]
    constructor
    · rintro (hsp | hall) hforall
      · have := hforall ' ' hsp
        simp [urlSafeChar] at this
      · exact hall hforall
    · exact fun h => Or.inr h
  by_cases h1 : pyStrip keyInput ≠ "" ∧ (' ' ∈ (pyStrip keyInput).data ∨
      ¬ (pyStrip keyInput).data.all (fun c => c.isAlphanum || c = '-' || c = '_') = true)
  · have hres : nodeDialogValidate keyInput aliasInput true siblings = .invalidKey := by
      unfold nodeDialogValidate
      rw [if_pos h1]
    rw [hres]
    refine ⟨iff_of_true rfl ⟨h1.1, hcond.mp h1.2⟩,
      iff_of_false (by simp) fun hB => (hcond.mp h1.2) (hB.1.resolve_left h1.1)⟩
  · have h1' : pyStrip keyInput = "" ∨ ∀ c ∈ (pyStrip keyInput).data, urlSafeChar c = true := by
      by_cases he : pyStrip keyInput = ""
      · exact Or.inl he
      · exact Or.inr (by_contra fun habs => h1 ⟨he, hcond.mpr habs⟩)
    have hA : ¬ (pyStrip keyInput ≠ "" ∧
        ¬ ∀ c ∈ (pyStrip keyInput).data, urlSafeChar c = true) :=
      fun hA => hA.2 (h1'.resolve_left hA.1)
    by_cases h2 : pyStrip keyInput ∈ siblings
    · have hres : nodeDialogValidate keyInput aliasInput true siblings = .duplicateKey := by
        unfold nodeDialogValidate
        rw [if_neg h1, if_pos ⟨rfl, h2⟩]
      rw [hres]
      exact ⟨iff_of_false (by simp) hA, iff_of_true rfl ⟨h1', h2⟩⟩
    · have hB : ¬ ((pyStrip keyInput = "" ∨
          ∀ c ∈ (pyStrip keyInput).data, urlSafeChar c = true) ∧
          pyStrip keyInput ∈ siblings) := fun hB => h2 hB.2
      have hne : nodeDialogValidate keyInput aliasInput true siblings ≠ .invalidKey ∧
          nodeDialogValidate keyInput aliasInput true siblings ≠ .duplicateKey := by
        unfold nodeDialogValidate
        rw [if_neg h1, if_neg fun hc => h2 hc.2]
        split_ifs <;> simp
      exact ⟨iff_of_false hne.1 hA, iff_of_false hne.2 hB⟩

theorem C8_validate_witness :
    nodeDialogValidate "a b" "X" true [] = .invalidKey ∧
      nodeDialogValidate "ok" "X" true ["ok"] = .duplicateKey :=
  ⟨((C8_validate "a b" "X" [] (by decide)).1).mpr (by decide),
   ((C8_validate "ok" "X" ["ok"] (by decide)).2).mpr (by decide)⟩

/-! ## C5/C6: the record matcher -/

theorem foldl_cons_rev {α β : Type} (f : α → β) (vs : List α) (m : List β) :
    vs.foldl (fun m v => f v :: m) m = (vs.map f).reverse ++ m := by
  induction vs generalizing m with
  | nil => rfl
  | cons v vs ih => simp [List.foldl_cons, ih]

theorem build_shopify_map_eq_rev (prods : List ShopifyProduct) :
    build_shopify_map prods = (allPairs prods).reverse := by
  suffices h : ∀ acc, prods.foldl
      (fun m prod => prod.variants.foldl
        (fun m v => ((pyStrip prod.title, v.price), v.id) :: m) m) acc =
      (allPairs prods).reverse ++ acc by
    simpa [build_shopify_map] using h []
  induction prods with
  | nil => intro acc; simp [allPairs]
  | cons prod prods ih =>
    intro acc
    rw [List.foldl_cons, foldl_cons_rev, ih]
    simp [allPairs, List.flatMap_cons, List.reverse_append, List.append_assoc]

theorem backfill_eq (m : List ((String × ℚ) × String)) (products : List LocalProduct) :
    backfill m products =
      (products.map (applyMatch m),
       (products.filter fun p => isUnmatched m p).map (fun p => p.id),
       (products.filter fun p => !isUnmatched m p).length) := by
  induction products with
  | nil => rfl
  | cons p rest ih =>
    cases hl : List.lookup (pyStrip p.name, p.price) m with
    | none => simp [backfill, ih, applyMatch, isUnmatched, hl]
    | some vid =>
      by_cases hv : vid = ""
      · subst hv
        simp [backfill, ih, applyMatch, isUnmatched, hl]
      · simp [backfill, ih, applyMatch, isUnmatched, hl, hv]

/-- **C5 (counterexample).** An external variant whose id is the empty
string produces an index hit, yet the matching loop treats it as a miss:
`if variant_id:` is false for the empty string, so the record's existing
`shopifyVariantId` is kept and its id is reported as unmatched, against the
claim's "on a hit, set `externalVariantId` to the mapped id". -/
theorem C5_matcher_cex :
    List.lookup ("A", (1 : ℚ))
        (build_shopify_map [⟨"A", [⟨1, ""⟩]⟩]) = some "" ∧
      backfill (build_shopify_map [⟨"A", [⟨1, ""⟩]⟩])
          [⟨"p1", "A", 1, "OLD", []⟩] =
        ([⟨"p1", "A", 1, "OLD", []⟩], ["p1"], 0) := by
  constructor <;> rfl

/-- **C5 (amended).** The matcher indexes
`(stripped external title, variant price) → variant id` over every variant
of every external record with later insertions overwriting earlier ones
(the index equals the reversed insertion sequence under first-match
lookup); each local record is then looked up by its own stripped name and
price, a hit with a non-empty id rewrites `externalVariantId` (and counts
as updated), and a missing key — or a looked-up empty id — appends the
record's identifier to the unmatched list instead. -/
theorem C5_matcher (ext : List ShopifyProduct) (products : List LocalProduct) :
    build_shopify_map ext = (allPairs ext).reverse ∧
    backfill (build_shopify_map ext) products =
      (products.map (applyMatch (build_shopify_map ext)),
       (products.filter fun p => isUnmatched (build_shopify_map ext) p).map (fun p => p.id),
       (products.filter fun p => !isUnmatched (build_shopify_map ext) p).length) :=
  ⟨build_shopify_map_eq_rev ext, backfill_eq _ products⟩

theorem C5_matcher_witness :
    backfill (build_shopify_map [⟨"Atari 2600", [⟨(8999 : ℚ)/100, "999"⟩]⟩])
        [⟨"p1", "Atari 2600", (8999 : ℚ)/100, "", []⟩] =
      ([⟨"p1", "Atari 2600", (8999 : ℚ)/100, "", []⟩].map
          (applyMatch (build_shopify_map [⟨"Atari 2600", [⟨(8999 : ℚ)/100, "999"⟩]⟩])),
       (([⟨"p1", "Atari 2600", (8999 : ℚ)/100, "", []⟩] : List LocalProduct).filter
          fun p => isUnmatched (build_shopify_map [⟨"Atari 2600", [⟨(8999 : ℚ)/100, "999"⟩]⟩]) p).map
         (fun p => p.id),
       (([⟨"p1", "Atari 2600", (8999 : ℚ)/100, "", []⟩] : List LocalProduct).filter
          fun p => !isUnmatched (build_shopify_map [⟨"Atari 2600", [⟨(8999 : ℚ)/100, "999"⟩]⟩]) p).length) :=
  (C5_matcher [⟨"Atari 2600", [⟨(8999 : ℚ)/100, "999"⟩]⟩]
    [⟨"p1", "Atari 2600", (8999 : ℚ)/100, "", []⟩]).2

/-- **C6.** The matching pass never removes or reorders local records and
touches no field other than `shopifyVariantId`: the output collection is
index-for-index related to the input, `id`, `name`, `price` and the
display fields are always preserved, and a record whose key misses the
index is returned entirely unchanged. -/
theorem C6_frame (ext : List ShopifyProduct) (products : List LocalProduct) :
    (backfill (build_shopify_map ext) products).1.length = products.length ∧
    List.Forall₂ (fun p q =>
        q.id = p.id ∧ q.name = p.name ∧ q.price = p.price ∧ q.display = p.display ∧
          (List.lookup (pyStrip p.name, p.price) (build_shopify_map ext) = none → q = p))
      products (backfill (build_shopify_map ext) products).1 := by
  rw [backfill_eq]
  refine ⟨by simp, ?_⟩
  induction products with
  | nil => simp
  | cons p rest ih =>
    refine List.Forall₂.cons ?_ ih
    unfold applyMatch
    cases hl : List.lookup (pyStrip p.name, p.price) (build_shopify_map ext) with
    | none => simp
    | some vid =>
      by_cases hv : vid = "" <;> simp [hv]

theorem C6_frame_witness :
    (backfill (build_shopify_map [⟨"B", [⟨2, "7"⟩]⟩]) [⟨"q1", "B", 2, "", []⟩]).1.length =
        ([⟨"q1", "B", 2, "", []⟩] : List LocalProduct).length ∧
      List.Forall₂ (fun p q =>
          q.id = p.id ∧ q.name = p.name ∧ q.price = p.price ∧ q.display = p.display ∧
            (List.lookup (pyStrip p.name, p.price) (build_shopify_map [⟨"B", [⟨2, "7"⟩]⟩]) = none →
              q = p))
        [⟨"q1", "B", (2 : ℚ), "", []⟩]
        (backfill (build_shopify_map [⟨"B", [⟨2, "7"⟩]⟩]) [⟨"q1", "B", 2, "", []⟩]).1 :=
  C6_frame [⟨"B", [⟨2, "7"⟩]⟩] [⟨"q1", "B", 2, "", []⟩]

/-! ## Splitting / joining / extension-stripping lemmas -/

theorem mk_data (s : String) : String.mk s.data = s := rfl

theorem splitOnChar_of_not_mem {sep : Char} {l : List Char} (h : sep ∉ l) :
    splitOnChar sep l = [l] := by
  induction l with
  | nil => rfl
  | cons c rest ih =>
    have hc : ¬ c = sep := fun e => h (e ▸ List.mem_cons_self c rest)
    have hr : sep ∉ rest := fun hm => h (List.mem_cons_of_mem c hm)
    simp [splitOnChar, hc, ih hr]

theorem splitOnChar_cons (sep c : Char) (rest : List Char) :
    splitOnChar sep (c :: rest) =
      if c = sep then [] :: splitOnChar sep rest
      else
        match splitOnChar sep rest with
        | r :: rs => (c :: r) :: rs
        | [] => [[c]] := rfl

theorem splitOnChar_append_sep {sep : Char} {p rest : List Char} (h : sep ∉ p) :
    splitOnChar sep (p ++ sep :: rest) = p :: splitOnChar sep rest := by
  induction p with
  | nil => simp [splitOnChar]
  | cons c p' ih =>
    have hc : ¬ c = sep := fun e => h (e ▸ List.mem_cons_self c p')
    have hp' : sep ∉ p' := fun hm => h (List.mem_cons_of_mem c hm)
    rw [List.cons_append, splitOnChar_cons, if_neg hc, ih hp']

theorem intercalate_cons_cons {α : Type} (s a b : List α) (l : List (List α)) :
    List.intercalate s (a :: b :: l) = a ++ s ++ List.intercalate s (b :: l) := by
  simp [List.intercalate, List.intersperse]

theorem intercalate_singleton {α : Type} (s a : List α) :
    List.intercalate s [a] = a := by
  simp [List.intercalate, List.intersperse]

theorem splitOnChar_intercalate (sep : Char) (parts : List (List Char))
    (hne : parts ≠ []) (h : ∀ p ∈ parts, sep ∉ p) :
    splitOnChar sep (List.intercalate [sep] parts) = parts := by
  induction parts with
  | nil => exact absurd rfl hne
  | cons p rest ih =>
    cases rest with
    | nil =>
      rw [intercalate_singleton]
      exact splitOnChar_of_not_mem (h p (List.mem_cons_self p []))
    | cons q rest' =>
      rw [intercalate_cons_cons, List.append_assoc, List.singleton_append,
        splitOnChar_append_sep (h p (List.mem_cons_self p _)),
        ih (by simp) (fun r hr => h r (List.mem_cons_of_mem p hr))]

theorem mem_intercalate_of_mem (sep : Char) (parts : List (List Char)) (c : Char)
    (hc : c ∈ List.intercalate [sep] parts) : c = sep ∨ ∃ p ∈ parts, c ∈ p := by
  induction parts with
  | nil => simp [List.intercalate] at hc
  | cons p rest ih =>
    cases rest with
    | nil =>
      rw [intercalate_singleton] at hc
      exact Or.inr ⟨p, List.mem_cons_self p [], hc⟩
    | cons q rest' =>
      rw [intercalate_cons_cons] at hc
      rcases List.mem_append.mp hc with h1 | h2
      · rcases List.mem_append.mp h1 with h3 | h4
        · exact Or.inr ⟨p, List.mem_cons_self p _, h3⟩
        · exact Or.inl (List.mem_singleton.mp h4)
      · rcases ih h2 with h5 | ⟨r, hr, hcr⟩
        · exact Or.inl h5
        · exact Or.inr ⟨r, List.mem_cons_of_mem p hr, hcr⟩

theorem sep_mem_intercalate (sep : Char) (a : List Char) (r : List (List Char))
    (hr : r ≠ []) : sep ∈ List.intercalate [sep] (a :: r) := by
  cases r with
  | nil => exact absurd rfl hr
  | cons b l =>
    rw [intercalate_cons_cons]
    exact List.mem_append.mpr (Or.inl (List.mem_append.mpr (Or.inr (List.mem_singleton.mpr rfl))))

theorem dropWhile_append_of_all {p : Char → Bool} {xs ys : List Char}
    (h : ∀ x ∈ xs, p x = true) : (xs ++ ys).dropWhile p = ys.dropWhile p := by
  induction xs with
  | nil => rfl
  | cons x xs ih =>
    simp only [List.cons_append, List.dropWhile_cons_of_pos (h x (List.mem_cons_self x xs))]
    exact ih fun y hy => h y (List.mem_cons_of_mem x hy)

theorem takeWhile_append_of_all {p : Char → Bool} {xs ys : List Char}
    (h : ∀ x ∈ xs, p x = true) : (xs ++ ys).takeWhile p = xs ++ ys.takeWhile p := by
  induction xs with
  | nil => rfl
  | cons x xs ih =>
    simp only [List.cons_append, List.takeWhile_cons_of_pos (h x (List.mem_cons_self x xs))]
    rw [ih fun y hy => h y (List.mem_cons_of_mem x hy)]

theorem splitextStem_append_ext (l ext : List Char) (hext : '.' ∉ ext)
    (hl : l.any (fun c => c ≠ '.') = true) : splitextStem (l ++ '.' :: ext) = l := by
  have h1 : List.dropWhile (fun c => decide (c ≠ '.')) ((l ++ '.' :: ext).reverse) =
      '.' :: l.reverse := by
    rw [show (l ++ '.' :: ext).reverse = ext.reverse ++ '.' :: l.reverse by simp,
      dropWhile_append_of_all (fun x hx => by
        simp only [ne_eq, decide_eq_true_eq]
        exact fun e => hext (e ▸ List.mem_reverse.mp hx))]
    exact List.dropWhile_cons_of_neg (by simp)
  unfold splitextStem
  simp only [h1, List.any_reverse, hl, if_true, List.reverse_reverse]

theorem basenameL_of_no_slash (l : List Char) (h : '/' ∉ l) : basenameL l = l := by
  unfold basenameL
  rw [splitOnChar_of_not_mem h]
  rfl

/-! ## The price scan -/

theorem mem_range'_one {s n m : Nat} : m ∈ List.range' s n ↔ s ≤ m ∧ m < s + n := by
  rw [List.mem_range']
  constructor
  · rintro ⟨i, hi, rfl⟩
    omega
  · rintro ⟨h1, h2⟩
    exact ⟨m - s, by omega, by omega⟩

theorem findSome?_rev_range' {α : Type} (f : Nat → Option α) (a : α) (s n i : Nat)
    (hs : s ≤ i) (hi : i < s + n) (hsome : f i = some a)
    (hnone : ∀ j, i < j → j < s + n → f j = none) :
    ((List.range' s n).reverse).findSome? f = some a := by
  induction n with
  | zero => omega
  | succ n ih =>
    rw [List.range'_1_concat, List.reverse_append]
    simp only [List.reverse_singleton, List.singleton_append, List.findSome?_cons]
    rcases Nat.lt_or_ge i (s + n) with hlt | hge
    · rw [hnone (s + n) (by omega) (by omega)]
      exact ih (by omega) fun j hj1 hj2 => hnone j hj1 (by omega)
    · have : i = s + n := by omega
      subst this
      rw [hsome]

theorem findPriceIdx_eq_none_iff (parts : List (List Char)) :
    findPriceIdx parts = none ↔
      ∀ j, 1 ≤ j → j < parts.length → pyFloatL (parts.getD j []) = none := by
  unfold findPriceIdx
  rw [List.findSome?_eq_none_iff]
  constructor
  · intro h j h1 hj
    have hm : j ∈ (List.range' 1 (parts.length - 1)).reverse :=
      List.mem_reverse.mpr (mem_range'_one.mpr ⟨h1, by omega⟩)
    exact Option.map_eq_none'.mp (h j hm)
  · intro h x hx
    have hb := mem_range'_one.mp (List.mem_reverse.mp hx)
    rw [h x hb.1 (by omega)]
    rfl

theorem findPriceIdx_eq_some (parts : List (List Char)) (i : Nat) (q : PyFloat)
    (h1 : 1 ≤ i) (hi : i < parts.length)
    (hq : pyFloatL (parts.getD i []) = some q)
    (hrm : ∀ j, i < j → j < parts.length → pyFloatL (parts.getD j []) = none) :
    findPriceIdx parts = some (i, q) := by
  unfold findPriceIdx
  refine findSome?_rev_range' _ (i, q) 1 (parts.length - 1) i h1 (by omega) ?_ ?_
  · rw [hq]; rfl
  · intro j hj1 hj2
    rw [hrm j hj1 (by omega)]; rfl

theorem findSome?_rev_range'_inv {α : Type} (f : Nat → Option α) (b : α) (s n : Nat)
    (h : ((List.range' s n).reverse).findSome? f = some b) :
    ∃ i, s ≤ i ∧ i < s + n ∧ f i = some b ∧
      ∀ j, i < j → j < s + n → f j = none := by
  induction n with
  | zero => simp [List.range'] at h
  | succ n ih =>
    rw [List.range'_1_concat, List.reverse_append] at h
    simp only [List.reverse_singleton, List.singleton_append, List.findSome?_cons] at h
    cases hf : f (s + n) with
    | some a =>
      rw [hf] at h
      exact ⟨s + n, by omega, by omega, by rw [hf]; exact h, fun j hj1 hj2 => by omega⟩
    | none =>
      rw [hf] at h
      obtain ⟨i, h1, h2, h3, h4⟩ := ih h
      refine ⟨i, h1, by omega, h3, fun j hj1 hj2 => ?_⟩
      rcases Nat.lt_or_ge j (s + n) with hj | hj
      · exact h4 j hj1 hj
      · have : j = s + n := by omega
        rw [this, hf]

theorem findPriceIdx_some_inv (parts : List (List Char)) (i : Nat) (q : PyFloat)
    (h : findPriceIdx parts = some (i, q)) :
    1 ≤ i ∧ i < parts.length ∧ pyFloatL (parts.getD i []) = some q ∧
      ∀ j, i < j → j < parts.length → pyFloatL (parts.getD j []) = none := by
  unfold findPriceIdx at h
  obtain ⟨a, h1, h2, h3, h4⟩ := findSome?_rev_range'_inv _ _ _ _ h
  obtain ⟨q', hq', heq⟩ := Option.map_eq_some'.mp h3
  have ha : a = i := congrArg Prod.fst heq
  have hqq : q' = q := congrArg Prod.snd heq
  subst ha
  subst hqq
  have hlen : 1 ≤ parts.length := by omega
  refine ⟨h1, by omega, hq', fun j hj1 hj2 => ?_⟩
  exact Option.map_eq_none'.mp (h4 j hj1 (by omega))

/-- The success case of `parseParts`, fields spelled out: the price is at
the rightmost parsing index `i`, the title is the hyphen-to-space,
title-cased segment before it, the categories are everything before the
title, and the notes are the segments after the price rejoined and
hyphen-to-space replaced. -/
theorem parseParts_ok (parts : List (List Char)) (i : Nat) (q : PyFloat)
    (h4 : 4 ≤ parts.length) (h1 : 1 ≤ i) (hi : i < parts.length)
    (hq : pyFloatL (parts.getD i []) = some q)
    (hrm : ∀ j, i < j → j < parts.length → pyFloatL (parts.getD j []) = none) :
    parseParts parts = .ok
      { title := ⟨pyTitleL (replaceL '-' ' ' (parts.getD (i - 1) []))⟩
        price := q
        categories := (parts.take (i - 1)).map fun p => ⟨p⟩
        tags := mkTags ((parts.take (i - 1)).map fun p => ⟨p⟩)
        extra_notes := ⟨replaceL '-' ' ' (List.intercalate ['_'] (parts.drop (i + 1)))⟩ } := by
  unfold parseParts
  rw [if_neg (by omega), findPriceIdx_eq_some parts i q h1 hi hq hrm]
  by_cases hlast : i < parts.length - 1
  · simp only [hlast, if_true]
  · simp only [hlast, if_false]
    have hd : parts.drop (i + 1) = [] := List.drop_eq_nil_of_le (by omega)
    rw [hd]
    rfl

/-- **C7.** `decode` fails with the too-short error exactly when the
extension-stripped base name has fewer than 4 `_`-separated segments,
fails with the no-price error exactly when it has at least 4 segments but
no segment right of the first parses as a float, and returns a descriptor
in every other case. -/
theorem C7_decode_errors (filename : String) (parts : List (List Char))
    (hp : parts = splitOnChar '_' (splitextStem (basenameL filename.data))) :
    (parse_image_filename filename = .error .tooShort ↔ parts.length < 4) ∧
    (parse_image_filename filename = .error .noPrice ↔
      4 ≤ parts.length ∧ ∀ j, 1 ≤ j → j < parts.length → pyFloatL (parts.getD j []) = none) ∧
    ((∃ d, parse_image_filename filename = .ok d) ↔
      4 ≤ parts.length ∧ ∃ j, 1 ≤ j ∧ j < parts.length ∧ pyFloatL (parts.getD j []) ≠ none) := by
  have hpe : parse_image_filename filename = parseParts parts := by rw [hp]; rfl
  rw [hpe]
  clear hpe hp
  by_cases h4 : parts.length < 4
  · rw [show parseParts parts = .error .tooShort by unfold parseParts; rw [if_pos h4]]
    refine ⟨iff_of_true rfl h4, iff_of_false (by simp) (by omega),
      iff_of_false ?_ (by omega)⟩
    rintro ⟨d, hd⟩
    cases hd
  · cases hfp : findPriceIdx parts with
    | none =>
      have hall := (findPriceIdx_eq_none_iff parts).mp hfp
      rw [show parseParts parts = .error .noPrice by
        unfold parseParts; rw [if_neg h4, hfp]]
      refine ⟨iff_of_false (by simp) h4, iff_of_true rfl ⟨by omega, hall⟩,
        iff_of_false ?_ ?_⟩
      · rintro ⟨d, hd⟩
        cases hd
      · rintro ⟨-, j, hj1, hj2, hne⟩
        exact hne (hall j hj1 hj2)
    | some iq =>
      obtain ⟨i, q⟩ := iq
      obtain ⟨hi1, hi2, hiq, hrm⟩ := findPriceIdx_some_inv parts i q hfp
      rw [parseParts_ok parts i q (by omega) hi1 hi2 hiq hrm]
      refine ⟨iff_of_false (by simp) h4, iff_of_false (by simp) ?_,
        iff_of_true ⟨_, rfl⟩ ⟨by omega, i, hi1, hi2, by rw [hiq]; simp⟩⟩
      rintro ⟨-, hall⟩
      rw [hall i hi1 hi2] at hiq
      cases hiq

theorem C7_decode_errors_witness :
    parse_image_filename "a_b_c" = .error .tooShort :=
  ((C7_decode_errors "a_b_c" _ rfl).1).mpr (by decide)

/-! ## C1: decode field extraction and price anchoring -/

/-- **C1 (counterexample).** The spec's example filenames carry no file
extension, so `os.path.splitext` eats the decimal digits of the price:
`"…_89.99"` decodes with price `89` (the `.99` is stripped as an
extension), and `"…_24.5_sealed-in-box"` loses `.5_sealed-in-box`, leaving
only 3 segments, which is a hard `MalformedFilenameError`. -/
theorem mkRat_eq_q (n : Int) (d : Nat) (q : ℚ) (h : (n : ℚ) / (d : ℚ) = q) :
    (mkRat n d : ℚ) = q := by
  rw [Rat.mkRat_eq_divInt, Rat.divInt_eq_div]
  push_cast
  exact h

theorem C1_decode_cex :
    parse_image_filename "video-games_atari_Atari-2600_89.99" =
      .ok { title := "Atari 2600", price := .val 89,
            categories := ["video-games", "atari"],
            tags := ["category:video-games", "subcategory1:atari"], extra_notes := "" } ∧
    PyFloat.val 89 ≠ PyFloat.val (8999 / 100) ∧
    parse_image_filename "toys_Mega-Man-Figure_24.5_sealed-in-box" = .error .tooShort := by
  refine ⟨by decide, ?_, by decide⟩
  have hne : (89 : ℚ) ≠ 8999 / 100 := by norm_num
  exact fun h => hne (PyFloat.val.inj h)

/-- **C1 (amended).** For every filename whose base name (extension
removed) splits on `_` into at least 4 segments with a segment right of
the first parsing as a decimal number, decode anchors the price at the
rightmost parsing segment; the segment before it, hyphens-to-spaces and
title-cased, is the title; the segments before the title are the category
path; the segments after the price, rejoined on `_` with hyphens replaced
by spaces, are the notes.  The spec's two examples hold once the file
extension the convention requires is present. -/
theorem C1_decode (filename : String) (parts : List (List Char)) (i : Nat) (q : PyFloat)
    (hp : parts = splitOnChar '_' (splitextStem (basenameL filename.data)))
    (h4 : 4 ≤ parts.length) (h1 : 1 ≤ i) (hi : i < parts.length)
    (hq : pyFloatL (parts.getD i []) = some q)
    (hrm : ∀ j, i < j → j < parts.length → pyFloatL (parts.getD j []) = none) :
    parse_image_filename filename = .ok
      { title := ⟨pyTitleL (replaceL '-' ' ' (parts.getD (i - 1) []))⟩
        price := q
        categories := (parts.take (i - 1)).map fun p => ⟨p⟩
        tags := mkTags ((parts.take (i - 1)).map fun p => ⟨p⟩)
        extra_notes := ⟨replaceL '-' ' ' (List.intercalate ['_'] (parts.drop (i + 1)))⟩ } ∧
    parse_image_filename "video-games_atari_Atari-2600_89.99.png" =
      .ok { title := "Atari 2600", price := .val (8999 / 100),
            categories := ["video-games", "atari"],
            tags := ["category:video-games", "subcategory1:atari"], extra_notes := "" } ∧
    parse_image_filename "toys_Mega-Man-Figure_24.5_sealed-in-box.png" =
      .ok { title := "Mega Man Figure", price := .val (49 / 2),
            categories := ["toys"], tags := ["category:toys"],
            extra_notes := "sealed in box" } := by
  refine ⟨?_, ?_, ?_⟩
  · have hpe : parse_image_filename filename = parseParts parts := by rw [hp]; rfl
    rw [hpe]
    exact parseParts_ok parts i q h4 h1 hi hq hrm
  · have h := show parse_image_filename "video-games_atari_Atari-2600_89.99.png" =
        .ok { title := "Atari 2600", price := .val (mkRat 8999 100),
              categories := ["video-games", "atari"],
              tags := ["category:video-games", "subcategory1:atari"], extra_notes := "" }
      by decide
    rw [h, mkRat_eq_q 8999 100 (8999 / 100) (by norm_num)]
  · have h := show parse_image_filename "toys_Mega-Man-Figure_24.5_sealed-in-box.png" =
        .ok { title := "Mega Man Figure", price := .val (mkRat 245 10),
              categories := ["toys"], tags := ["category:toys"],
              extra_notes := "sealed in box" }
      by decide
    rw [h, show (mkRat 245 10 : ℚ) = 49 / 2 from mkRat_eq_q 245 10 (49 / 2) (by norm_num)]

theorem C1_decode_witness :
    parse_image_filename "a_b_c_9.png" =
      .ok { title := "C", price := .val 9, categories := ["a", "b"],
            tags := ["category:a", "subcategory1:b"], extra_notes := "" } := by
  have h := (C1_decode "a_b_c_9.png"
    (splitOnChar '_' (splitextStem (basenameL "a_b_c_9.png".data))) 3 (.val 9) rfl
    (by decide) (by decide) (by decide) (by decide)
    (fun j hj1 hj2 => by
      have hlen : (splitOnChar '_' (splitextStem (basenameL "a_b_c_9.png".data))).length = 4 :=
        by decide
      omega)).1
  exact h

/-! ## C2: the encode/decode round trip -/

theorem mem_replaceL {c a b : Char} {l : List Char} (h : c ∈ replaceL a b l) :
    c = b ∨ c ∈ l := by
  obtain ⟨x, hx, hfx⟩ := List.mem_map.mp h
  by_cases hxa : x = a
  · subst hxa
    simp only [if_pos rfl] at hfx
    exact Or.inl hfx.symm
  · simp only [if_neg hxa] at hfx
    exact Or.inr (hfx ▸ hx)

theorem replaceL_ne_nil {a b : Char} {l : List Char} (h : l ≠ []) :
    replaceL a b l ≠ [] := by
  simpa [replaceL] using h

theorem replace_swap_of_not_mem {x : List Char} (h : '-' ∉ x) :
    replaceL '-' ' ' (replaceL ' ' '-' x) = x := by
  induction x with
  | nil => rfl
  | cons c rest ih =>
    have hc : c ≠ '-' := fun e => h (e ▸ List.mem_cons_self c rest)
    have hr : '-' ∉ rest := fun hm => h (List.mem_cons_of_mem c hm)
    by_cases hsp : c = ' '
    · subst hsp
      simp [replaceL] at ih ⊢
      exact ih hr
    · simp only [replaceL, List.map_cons, if_neg hsp, if_neg hc] at ih ⊢
      exact List.cons_eq_cons.mpr ⟨rfl, ih hr⟩

theorem replace_swap_notes (x : List Char) :
    replaceL '-' ' ' (replaceL ' ' '-' x) = replaceL '-' ' ' x := by
  unfold replaceL
  rw [List.map_map]
  refine List.map_congr_left fun c _ => ?_
  by_cases hsp : c = ' '
  · subst hsp
    simp
  · by_cases hh : c = '-' <;> simp [hsp, hh]

/-- **C2 (counterexample).** The descriptor with category `["toys"]`,
title `"Figure"`, price `"24.5"` and empty notes satisfies all of the
claim's hypotheses (one category segment, non-empty title, non-negative
price), but its encoded filename has only 3 segments, so decoding fails
outright instead of reproducing the descriptor. -/
theorem C2_roundtrip_cex :
    update_preview ["toys"] "Figure" "24.5" "" = "toys_Figure_24.5.png" ∧
    parse_image_filename "toys_Figure_24.5.png" = .error .tooShort ∧
    (["toys"] : List String) ≠ [] ∧ "Figure" ≠ "" ∧
    pyFloatL "24.5".data = some (.val (49 / 2)) ∧ (0 : ℚ) ≤ 49 / 2 := by
  refine ⟨by decide, by decide, by decide, by decide, ?_, by norm_num⟩
  have h : pyFloatL "24.5".data = some (.val (mkRat 245 10)) := by decide
  rw [h, show (mkRat 245 10 : ℚ) = 49 / 2 from mkRat_eq_q 245 10 (49 / 2) (by norm_num)]

/-- Common part of the C2 round trip: decoding
`intercalate "_" partsL ++ ".png"` recovers `parseParts partsL`, provided
no segment contains `_` or `/`, the first position exists and there is a
second segment. -/
theorem parse_of_encode (partsL : List (List Char))
    (hne : partsL ≠ [])
    (htwo : 2 ≤ partsL.length)
    (hmem : ∀ p ∈ partsL, '_' ∉ p ∧ '/' ∉ p) :
    parse_image_filename ⟨List.intercalate ['_'] partsL ++ ".png".data⟩ =
      parseParts partsL := by
  have hsep : '_' ∈ List.intercalate ['_'] partsL := by
    cases partsL with
    | nil => exact absurd rfl hne
    | cons a r =>
      refine sep_mem_intercalate '_' a r ?_
      intro h
      rw [h] at htwo
      simp at htwo
  have hslash : '/' ∉ List.intercalate ['_'] partsL ++ ".png".data := by
    intro h
    rcases List.mem_append.mp h with h1 | h2
    · rcases mem_intercalate_of_mem '_' partsL '/' h1 with h3 | ⟨p, hp, hcp⟩
      · cases h3
      · exact (hmem p hp).2 hcp
    · simp [String.data] at h2
  have hb : basenameL (List.intercalate ['_'] partsL ++ ".png".data) =
      List.intercalate ['_'] partsL ++ ".png".data :=
    basenameL_of_no_slash _ hslash
  have hstem : splitextStem (List.intercalate ['_'] partsL ++ ".png".data) =
      List.intercalate ['_'] partsL := by
    have : List.intercalate ['_'] partsL ++ ".png".data =
        List.intercalate ['_'] partsL ++ '.' :: "png".data := rfl
    rw [this]
    refine splitextStem_append_ext _ _ (by decide) ?_
    exact List.any_eq_true.mpr ⟨'_', hsep, by decide⟩
  have hsplit : splitOnChar '_' (List.intercalate ['_'] partsL) = partsL :=
    splitOnChar_intercalate '_' partsL hne fun p hp => (hmem p hp).1
  show parseParts (splitOnChar '_' (splitextStem (basenameL
    (List.intercalate ['_'] partsL ++ ".png".data)))) = parseParts partsL
  rw [hb, hstem, hsplit]

/-- **C2 (amended).** For a descriptor whose encoded form has at least 4
segments (two or more category segments, or non-empty notes), whose
category segments, title, price and notes contain neither the `_`
delimiter nor a path separator, whose title is hyphen-free and already
title-cased, whose price parses as a non-negative decimal, and whose notes
do not themselves parse as a decimal after space-to-hyphen encoding:
decoding the encoded filename reproduces the category path, title and
price exactly, and the notes with hyphens replaced by spaces. -/
theorem C2_roundtrip (cats : List String) (title price notes : String) (qv : ℚ)
    (hcats : cats ≠ [])
    (hseg : ∀ s ∈ cats, '_' ∉ s.data ∧ '/' ∉ s.data)
    (htne : title ≠ "")
    (ht_ : '_' ∉ title.data) (hts : '/' ∉ title.data) (hth : '-' ∉ title.data)
    (htt : pyTitleL title.data = title.data)
    (hp_ : '_' ∉ price.data) (hps : '/' ∉ price.data)
    (hq : pyFloatL price.data = some (.val qv)) (hq0 : 0 ≤ qv)
    (hn_ : '_' ∉ notes.data) (hns : '/' ∉ notes.data)
    (hnum : notes ≠ "" → pyFloatL (replaceL ' ' '-' notes.data) = none)
    (hlen2 : notes = "" → 2 ≤ cats.length) :
    parse_image_filename (update_preview cats title price notes) = .ok
      { title := title
        price := .val qv
        categories := cats
        tags := mkTags cats
        extra_notes := ⟨replaceL '-' ' ' notes.data⟩ } := by
  clear hq0
  have htd : title.data ≠ [] := fun h => htne (by rw [← mk_data title, h])
  have ht' : replaceL ' ' '-' title.data ≠ [] := replaceL_ne_nil htd
  have hpd : price.data ≠ [] := by
    intro h
    have hz : pyFloatL ([] : List Char) = none := rfl
    rw [h, hz] at hq
    cases hq
  have hk : 1 ≤ cats.length := List.length_pos.mpr hcats
  have hcmem : ∀ p ∈ cats.map String.data, '_' ∉ p ∧ '/' ∉ p := by
    intro p hp
    obtain ⟨s, hs, rfl⟩ := List.mem_map.mp hp
    exact hseg s hs
  have htmem : '_' ∉ replaceL ' ' '-' title.data ∧ '/' ∉ replaceL ' ' '-' title.data := by
    constructor <;> intro h <;> rcases mem_replaceL h with h1 | h1
    · cases h1
    · exact ht_ h1
    · cases h1
    · exact hts h1
  have hfields : pyTitleL (replaceL '-' ' ' (replaceL ' ' '-' title.data)) = title.data := by
    rw [replace_swap_of_not_mem hth, htt]
  have hc3 : (cats.map String.data).map (fun p => String.mk p) = cats := by
    rw [List.map_map]
    exact List.map_id cats
  by_cases hn : notes = ""
  · have hk2 : 2 ≤ cats.length := hlen2 hn
    have hup : update_preview cats title price notes =
        ⟨List.intercalate ['_'] (cats.map String.data ++
          [replaceL ' ' '-' title.data, price.data]) ++ ".png".data⟩ := by
      subst hn
      simp only [update_preview, if_neg hcats]
      rw [if_pos ht', if_pos hpd,
        if_neg (show ¬ replaceL ' ' '-' ("" : String).data ≠ [] by simp [replaceL])]
      congr 1
      simp
    have hmemAll : ∀ p ∈ cats.map String.data ++
        [replaceL ' ' '-' title.data, price.data], '_' ∉ p ∧ '/' ∉ p := by
      intro p hp
      rcases List.mem_append.mp hp with h1 | h2
      · exact hcmem p h1
      · rcases List.mem_cons.mp h2 with rfl | h3
        · exact htmem
        · rcases List.mem_singleton.mp h3 with rfl
          exact ⟨hp_, hps⟩
    have hlen : (cats.map String.data ++
        [replaceL ' ' '-' title.data, price.data]).length = cats.length + 2 := by
      simp
    have hq' : pyFloatL ((cats.map String.data ++
        [replaceL ' ' '-' title.data, price.data]).getD (cats.length + 1) []) =
        some (.val qv) := by
      rw [List.getD_append_right _ _ _ _ (by simp only [List.length_map]; omega)]
      have hidx : cats.length + 1 - (cats.map String.data).length = 1 := by simp
      rw [hidx]
      exact hq
    rw [hup, parse_of_encode _ (by simp) (by rw [hlen]; omega) hmemAll,
      parseParts_ok _ (cats.length + 1) (.val qv) (by rw [hlen]; omega) (by omega)
        (by rw [hlen]; omega) hq' (by intro j hj1 hj2; rw [hlen] at hj2; omega)]
    simp only [Except.ok.injEq, ParsedProduct.mk.injEq, true_and, and_true]
    have hc1 : (cats.map String.data ++
        [replaceL ' ' '-' title.data, price.data]).getD (cats.length + 1 - 1) [] =
        replaceL ' ' '-' title.data := by
      rw [Nat.add_sub_cancel, List.getD_append_right _ _ _ _ (by simp)]
      simp
    have hc2 : (cats.map String.data ++
        [replaceL ' ' '-' title.data, price.data]).take (cats.length + 1 - 1) =
        cats.map String.data := by
      rw [Nat.add_sub_cancel]
      exact List.take_left' (by simp)
    have hc4 : (cats.map String.data ++
        [replaceL ' ' '-' title.data, price.data]).drop (cats.length + 1 + 1) = [] :=
      List.drop_eq_nil_of_le (by rw [hlen])
    refine ⟨?_, ?_, ?_, ?_⟩
    · rw [hc1, hfields, mk_data]
    · rw [hc2, hc3]
    · rw [hc2, hc3]
    · rw [hc4]
      subst hn
      rfl
  · have hnd : notes.data ≠ [] := fun h => hn (by rw [← mk_data notes, h])
    have hn' : replaceL ' ' '-' notes.data ≠ [] := replaceL_ne_nil hnd
    have hnmem : '_' ∉ replaceL ' ' '-' notes.data ∧ '/' ∉ replaceL ' ' '-' notes.data := by
      constructor <;> intro h <;> rcases mem_replaceL h with h1 | h1
      · cases h1
      · exact hn_ h1
      · cases h1
      · exact hns h1
    have hup : update_preview cats title price notes =
        ⟨List.intercalate ['_'] (cats.map String.data ++
          [replaceL ' ' '-' title.data, price.data, replaceL ' ' '-' notes.data]) ++
          ".png".data⟩ := by
      simp only [update_preview, if_neg hcats]
      rw [if_pos ht', if_pos hpd, if_pos hn']
      congr 1
      simp
    have hmemAll : ∀ p ∈ cats.map String.data ++
        [replaceL ' ' '-' title.data, price.data, replaceL ' ' '-' notes.data],
        '_' ∉ p ∧ '/' ∉ p := by
      intro p hp
      rcases List.mem_append.mp hp with h1 | h2
      · exact hcmem p h1
      · rcases List.mem_cons.mp h2 with rfl | h3
        · exact htmem
        · rcases List.mem_cons.mp h3 with rfl | h4
          · exact ⟨hp_, hps⟩
          · rcases List.mem_singleton.mp h4 with rfl
            exact hnmem
    have hlen : (cats.map String.data ++
        [replaceL ' ' '-' title.data, price.data, replaceL ' ' '-' notes.data]).length =
        cats.length + 3 := by
      simp
    have hq' : pyFloatL ((cats.map String.data ++
        [replaceL ' ' '-' title.data, price.data, replaceL ' ' '-' notes.data]).getD
          (cats.length + 1) []) = some (.val qv) := by
      rw [List.getD_append_right _ _ _ _ (by simp only [List.length_map]; omega)]
      have hidx : cats.length + 1 - (cats.map String.data).length = 1 := by simp
      rw [hidx]
      exact hq
    have hrm' : ∀ j, cats.length + 1 < j →
        j < (cats.map String.data ++
          [replaceL ' ' '-' title.data, price.data, replaceL ' ' '-' notes.data]).length →
        pyFloatL ((cats.map String.data ++
          [replaceL ' ' '-' title.data, price.data, replaceL ' ' '-' notes.data]).getD
            j []) = none := by
      intro j hj1 hj2
      rw [hlen] at hj2
      have hj : j = cats.length + 2 := by omega
      subst hj
      rw [List.getD_append_right _ _ _ _ (by simp only [List.length_map]; omega)]
      have hidx : cats.length + 2 - (cats.map String.data).length = 2 := by simp
      rw [hidx]
      exact hnum hn
    rw [hup, parse_of_encode _ (by simp) (by rw [hlen]; omega) hmemAll,
      parseParts_ok _ (cats.length + 1) (.val qv) (by rw [hlen]; omega) (by omega)
        (by rw [hlen]; omega) hq' hrm']
    simp only [Except.ok.injEq, ParsedProduct.mk.injEq, true_and, and_true]
    have hc1 : (cats.map String.data ++
        [replaceL ' ' '-' title.data, price.data, replaceL ' ' '-' notes.data]).getD
          (cats.length + 1 - 1) [] = replaceL ' ' '-' title.data := by
      rw [Nat.add_sub_cancel, List.getD_append_right _ _ _ _ (by simp)]
      simp
    have hc2 : (cats.map String.data ++
        [replaceL ' ' '-' title.data, price.data, replaceL ' ' '-' notes.data]).take
          (cats.length + 1 - 1) = cats.map String.data := by
      rw [Nat.add_sub_cancel]
      exact List.take_left' (by simp)
    have hc4 : (cats.map String.data ++
        [replaceL ' ' '-' title.data, price.data, replaceL ' ' '-' notes.data]).drop
          (cats.length + 1 + 1) = [replaceL ' ' '-' notes.data] := by
      rw [show cats.map String.data ++
          [replaceL ' ' '-' title.data, price.data, replaceL ' ' '-' notes.data] =
          (cats.map String.data ++ [replaceL ' ' '-' title.data, price.data]) ++
            [replaceL ' ' '-' notes.data] by simp]
      exact List.drop_left' (by simp)
    refine ⟨?_, ?_, ?_, ?_⟩
    · rw [hc1, hfields, mk_data]
    · rw [hc2, hc3]
    · rw [hc2, hc3]
    · rw [hc4, intercalate_singleton, replace_swap_notes]

theorem C2_roundtrip_witness :
    parse_image_filename (update_preview ["a", "b"] "Figure" "9.5" "") = .ok
      { title := "Figure", price := .val (mkRat 95 10), categories := ["a", "b"],
        tags := mkTags ["a", "b"], extra_notes := ⟨replaceL '-' ' ' ("" : String).data⟩ } :=
  C2_roundtrip ["a", "b"] "Figure" "9.5" "" (mkRat 95 10) (by decide) (by decide)
    (by decide) (by decide) (by decide) (by decide) (by decide) (by decide) (by decide)
    (by decide) (by decide) (by decide) (by decide)
    (fun h => absurd rfl h) (fun _ => by decide)

/-! ## C3/C10: path-list round trip through the category tree -/

theorem flatten_tree_map_pfx : ∀ (t : List CatNode) (pfx : List String),
    flatten_tree t pfx = (flatten_tree t []).map (fun s => pfx ++ s)
  | [], _ => by simp [flatten_tree]
  | .mk k a c :: ns, pfx => by
    simp only [flatten_tree, List.map_append, List.nil_append]
    by_cases hc : c.isEmpty
    · rw [if_pos hc, if_pos hc, flatten_tree_map_pfx ns pfx]
      simp
    · rw [if_neg hc, if_neg hc, flatten_tree_map_pfx ns pfx,
        flatten_tree_map_pfx c (pfx ++ [k]), flatten_tree_map_pfx c [k], List.map_map]
      congr 1
      refine List.map_congr_left fun s _ => ?_
      simp

theorem flatten_tree_ne_nil : ∀ (t : List CatNode) (pfx : List String),
    t ≠ [] → flatten_tree t pfx ≠ []
  | [], _, h => absurd rfl h
  | .mk k a c :: ns, pfx, _ => by
    simp only [flatten_tree]
    by_cases hc : c.isEmpty
    · rw [if_pos hc]
      simp
    · rw [if_neg hc]
      intro habs
      rcases List.append_eq_nil.mp habs with ⟨h1, -⟩
      exact flatten_tree_ne_nil c (pfx ++ [k]) (by simpa using hc) h1

theorem insertPath_found (al : List (String × String)) (k : String) (rest : List String) :
    ∀ (t0 : List CatNode) (a : String) (cc : List CatNode) (ts : List CatNode),
      k ∉ t0.map CatNode.key →
      insertPath al (k :: rest) (t0 ++ .mk k a cc :: ts) =
        t0 ++ .mk k a (insertPath al rest cc) :: ts
  | [], a, cc, ts, _ => by
    simp [insertPath, CatNode.key, CatNode.nodeAlias, CatNode.children]
  | m :: t0, a, cc, ts, h => by
    have hm : ¬ m.key = k := fun e => h (by simp [e])
    have h0 : k ∉ t0.map CatNode.key := fun hh => h (by simp [hh])
    simp only [List.cons_append, insertPath, if_neg hm]
    rw [insertPath_found al k rest t0 a cc ts h0]

theorem insertPath_fresh (al : List (String × String)) (k : String) (rest : List String) :
    ∀ (t : List CatNode), k ∉ t.map CatNode.key →
      insertPath al (k :: rest) t = t ++ [.mk k (aliasFor al k) (insertPath al rest [])]
  | [], _ => by simp [insertPath]
  | m :: ts, h => by
    have hm : ¬ m.key = k := fun e => h (by simp [e])
    have h0 : k ∉ ts.map CatNode.key := fun hh => h (by simp [hh])
    simp only [insertPath, if_neg hm]
    rw [insertPath_fresh al k rest ts h0]
    exact (List.cons_append m ts _).symm

theorem foldl_insert_group (al : List (String × String)) (k : String) :
    ∀ (Q : List (List String)) (t0 : List CatNode) (a : String) (cc : List CatNode),
      k ∉ t0.map CatNode.key →
      List.foldl (fun t p => insertPath al p t) (t0 ++ [.mk k a cc]) (Q.map (k :: ·)) =
        t0 ++ [.mk k a (List.foldl (fun t p => insertPath al p t) cc Q)]
  | [], t0, a, cc, _ => by simp
  | q :: Q, t0, a, cc, h => by
    simp only [List.map_cons, List.foldl_cons]
    rw [insertPath_found al k q t0 a cc [] h]
    exact foldl_insert_group al k Q t0 a _ h

/-- Rebuilding from the flattened form appends the default-aliased copy of
the tree after any already-built disjoint forest. -/
theorem build_append (al : List (String × String)) :
    ∀ (T : List CatNode) (t0 : List CatNode), wfb T = true →
      (∀ n ∈ T, n.key ∉ t0.map CatNode.key) →
      List.foldl (fun t p => insertPath al p t) t0 (flatten_tree T []) =
        t0 ++ defaultize al T
  | [], t0, _, _ => by simp [flatten_tree, defaultize]
  | .mk k a c :: ns, t0, hwf, hdis => by
    have hwf' : (!(ns.any fun m => m.key == k)) = true ∧ wfb c = true ∧ wfb ns = true := by
      have h := hwf
      simp only [wfb, Bool.and_eq_true] at h
      exact ⟨h.1.1, h.1.2, h.2⟩
    have hns : ∀ x ∈ ns, x.key ≠ k := by
      intro x hx e
      have h := hwf'.1
      rw [Bool.not_eq_true'] at h
      rw [List.any_eq_false] at h
      exact h x hx (by simp [e])
    have hk0 : k ∉ t0.map CatNode.key := hdis (.mk k a c) (List.mem_cons_self _ _)
    have hgroup : flatten_tree [CatNode.mk k a c] [] =
        ((if c.isEmpty then [[]] else flatten_tree c []).map (k :: ·)) := by
      simp only [flatten_tree]
      by_cases hc : c.isEmpty
      · rw [if_pos hc, if_pos hc]
        rfl
      · rw [if_neg hc, if_neg hc, List.nil_append, List.append_nil,
          show ([k] : List String) = [] ++ [k] by rfl, flatten_tree_map_pfx c ([] ++ [k])]
        refine List.map_congr_left fun s _ => rfl
    have hsplit : flatten_tree (CatNode.mk k a c :: ns) [] =
        flatten_tree [CatNode.mk k a c] [] ++ flatten_tree ns [] := by
      simp [flatten_tree]
    rw [hsplit, List.foldl_append, hgroup]
    have hQne : (if c.isEmpty then [[]] else flatten_tree c []) ≠ [] := by
      by_cases hc : c.isEmpty
      · rw [if_pos hc]; simp
      · rw [if_neg hc]
        exact flatten_tree_ne_nil c [] (by simpa using hc)
    obtain ⟨q0, Q, hQ⟩ := List.exists_cons_of_ne_nil hQne
    have hstep1 : List.foldl (fun t p => insertPath al p t) t0
        ((if c.isEmpty then [[]] else flatten_tree c []).map (k :: ·)) =
        t0 ++ [CatNode.mk k (aliasFor al k)
          (List.foldl (fun t p => insertPath al p t) []
            (if c.isEmpty then [[]] else flatten_tree c []))] := by
      rw [hQ]
      simp only [List.map_cons, List.foldl_cons]
      rw [insertPath_fresh al k q0 t0 hk0,
        foldl_insert_group al k Q t0 (aliasFor al k) (insertPath al q0 []) hk0]
    rw [hstep1]
    have hchild : List.foldl (fun t p => insertPath al p t) []
        (if c.isEmpty then [[]] else flatten_tree c []) = defaultize al c := by
      by_cases hc : c.isEmpty
      · rw [if_pos hc]
        have hcc : c = [] := by simpa using hc
        subst hcc
        simp [insertPath, defaultize]
      · rw [if_neg hc]
        have h := build_append al c [] hwf'.2.1 (by simp)
        simpa using h
    rw [hchild]
    have hdis2 : ∀ n ∈ ns, n.key ∉
        (t0 ++ [CatNode.mk k (aliasFor al k) (defaultize al c)]).map CatNode.key := by
      intro n hn
      simp only [List.map_append, List.mem_append, List.map_cons, CatNode.key,
        List.map_nil, List.mem_cons, List.not_mem_nil, or_false]
      rintro (h1 | h2)
      · exact hdis n (List.mem_cons_of_mem _ hn) h1
      · exact hns n hn h2
    rw [build_append al ns _ hwf'.2.2 hdis2]
    simp [defaultize]

theorem flatten_defaultize (al : List (String × String)) :
    ∀ (T : List CatNode) (pfx : List String),
      flatten_tree (defaultize al T) pfx = flatten_tree T pfx
  | [], _ => by simp [defaultize]
  | .mk k a c :: ns, pfx => by
    simp only [defaultize, flatten_tree]
    have hemp : (defaultize al c).isEmpty = c.isEmpty := by
      cases c with
      | nil => simp [defaultize]
      | cons hd tl => cases hd; simp [defaultize]
    rw [hemp, flatten_defaultize al ns pfx]
    by_cases hc : c.isEmpty
    · rw [if_pos hc, if_pos hc]
    · rw [if_neg hc, if_neg hc, flatten_defaultize al c (pfx ++ [k])]

/-- **C3.** Rebuilding the tree from the canonical flat form of any
well-formed non-empty tree and flattening again reproduces exactly the
same ordered path list; and bulk import of a duplicated path is a no-op
rather than a duplicate-key failure. -/
theorem C3_pathlist_roundtrip :
    (∀ (T : List CatNode) (al : List (String × String)), wfb T = true → T ≠ [] →
      flatten_tree (build_tree (flatten_tree T []) al) [] = flatten_tree T []) ∧
    flatten_tree (build_tree [["video-games", "atari"], ["video-games", "atari"]] []) [] =
      [["video-games", "atari"]] := by
  constructor
  · intro T al hwf _
    unfold build_tree
    rw [build_append al T [] hwf (by simp), List.nil_append, flatten_defaultize]
  · simp [build_tree, insertPath, flatten_tree, CatNode.key, CatNode.nodeAlias,
      CatNode.children]

theorem C3_pathlist_roundtrip_witness :
    flatten_tree (build_tree (flatten_tree
      [CatNode.mk "video-games" "Video Games" [CatNode.mk "atari" "Atari" []]] []) []) [] =
      flatten_tree [CatNode.mk "video-games" "Video Games" [CatNode.mk "atari" "Atari" []]] [] :=
  C3_pathlist_roundtrip.1
    [CatNode.mk "video-games" "Video Games" [CatNode.mk "atari" "Atari" []]] []
    (by simp [wfb]) (by simp)

theorem hasChildKey_nil_tree (p : List String) (k : String) :
    hasChildKey [] p k = false := by
  cases p <;> simp [hasChildKey, childrenAt, lookupChild]

theorem hasChildKey_nil_path (t : List CatNode) (k : String) :
    hasChildKey t [] k = t.any fun n => n.key == k := by
  simp [hasChildKey, childrenAt]

theorem hasChildKey_cons_path (t : List CatNode) (x : String) (rest : List String)
    (k : String) :
    hasChildKey t (x :: rest) k =
      match lookupChild t x with
      | some n => hasChildKey n.children rest k
      | none => false := by
  simp only [hasChildKey, childrenAt]
  cases lookupChild t x with
  | none => rfl
  | some n => rfl

theorem lookupChild_cons (n : CatNode) (ns : List CatNode) (x : String) :
    lookupChild (n :: ns) x = if n.key = x then some n else lookupChild ns x := by
  simp only [lookupChild]
  by_cases h : n.key = x
  · rw [if_pos h]
    exact List.find?_cons_of_pos _ (by simp [h])
  · rw [if_neg h]
    exact List.find?_cons_of_neg _ (by simp [h])

theorem insertPath_cons_found (al : List (String × String)) (y : String)
    (ys : List String) (na : String) (nc : List CatNode) (ns : List CatNode) :
    insertPath al (y :: ys) (CatNode.mk y na nc :: ns) =
      CatNode.mk y na (insertPath al ys nc) :: ns := by
  simp [insertPath, CatNode.key, CatNode.nodeAlias, CatNode.children]

theorem insertPath_cons_miss (al : List (String × String)) (y : String)
    (ys : List String) (nk na : String) (nc : List CatNode) (ns : List CatNode)
    (h : nk ≠ y) :
    insertPath al (y :: ys) (CatNode.mk nk na nc :: ns) =
      CatNode.mk nk na nc :: insertPath al (y :: ys) ns := by
  simp [insertPath, CatNode.key, h]

theorem insertPath_nil_tree (al : List (String × String)) (y : String)
    (ys : List String) :
    insertPath al (y :: ys) [] = [CatNode.mk y (aliasFor al y) (insertPath al ys [])] := by
  simp [insertPath]

theorem hasChildKey_insert (al : List (String × String)) :
    ∀ (r : List String) (t : List CatNode) (p : List String) (k : String),
      hasChildKey t p k = true → hasChildKey (insertPath al r t) p k = true
  | [], t, p, k, h => by simpa [insertPath] using h
  | _ :: _, [], p, k, h => by rw [hasChildKey_nil_tree] at h; cases h
  | y :: ys, .mk nk na nc :: ns, p, k, h => by
    by_cases hny : nk = y
    · subst hny
      rw [insertPath_cons_found]
      cases p with
      | nil =>
        rw [hasChildKey_nil_path] at h ⊢
        simpa [CatNode.key] using h
      | cons x p' =>
        rw [hasChildKey_cons_path, lookupChild_cons] at h ⊢
        by_cases hx : nk = x
        · rw [if_pos (by simpa [CatNode.key] using hx)] at h
          rw [if_pos (by simpa [CatNode.key] using hx)]
          simp only [CatNode.children] at h ⊢
          exact hasChildKey_insert al ys nc p' k h
        · rw [if_neg (by simpa [CatNode.key] using hx)] at h
          rw [if_neg (by simpa [CatNode.key] using hx)]
          exact h
    · rw [insertPath_cons_miss al y ys nk na nc ns hny]
      cases p with
      | nil =>
        rw [hasChildKey_nil_path] at h ⊢
        simp only [List.any_cons, Bool.or_eq_true] at h ⊢
        rcases h with h1 | h1
        · exact Or.inl h1
        · refine Or.inr ?_
          have := hasChildKey_insert al (y :: ys) ns [] k
            (by rw [hasChildKey_nil_path]; exact h1)
          rw [hasChildKey_nil_path] at this
          exact this
      | cons x p' =>
        rw [hasChildKey_cons_path, lookupChild_cons] at h ⊢
        by_cases hx : nk = x
        · rw [if_pos (by simpa [CatNode.key] using hx)] at h
          rw [if_pos (by simpa [CatNode.key] using hx)]
          exact h
        · rw [if_neg (by simpa [CatNode.key] using hx)] at h
          rw [if_neg (by simpa [CatNode.key] using hx)]
          have := hasChildKey_insert al (y :: ys) ns (x :: p') k
            (by rw [hasChildKey_cons_path]; exact h)
          rw [hasChildKey_cons_path] at this
          exact this
termination_by r t => (r.length, t.length)

theorem key_any_insert (al : List (String × String)) (y : String) (ys : List String) :
    ∀ (t : List CatNode), (insertPath al (y :: ys) t).any (fun n => n.key == y) = true
  | [] => by
    rw [insertPath_nil_tree]
    simp [CatNode.key]
  | .mk nk na nc :: ns => by
    by_cases hny : nk = y
    · subst hny
      rw [insertPath_cons_found]
      simp [CatNode.key]
    · rw [insertPath_cons_miss al y ys nk na nc ns hny]
      simp only [List.any_cons, Bool.or_eq_true]
      exact Or.inr (key_any_insert al y ys ns)

theorem lookup_insert_found (al : List (String × String)) (y : String) (ys : List String) :
    ∀ (t : List CatNode) (n : CatNode), lookupChild t y = some n →
      lookupChild (insertPath al (y :: ys) t) y =
        some (CatNode.mk y n.nodeAlias (insertPath al ys n.children))
  | [], n, h => by simp [lookupChild] at h
  | .mk nk na nc :: ns, n, h => by
    rw [lookupChild_cons] at h
    simp only [CatNode.key] at h
    by_cases hny : nk = y
    · subst hny
      rw [if_pos rfl] at h
      obtain rfl := Option.some.inj h
      rw [insertPath_cons_found, lookupChild_cons]
      simp only [CatNode.key, if_pos rfl]
      rfl
    · rw [if_neg hny] at h
      rw [insertPath_cons_miss al y ys nk na nc ns hny, lookupChild_cons]
      simp only [CatNode.key, if_neg hny]
      exact lookup_insert_found al y ys ns n h

theorem lookup_insert_fresh (al : List (String × String)) (y : String) (ys : List String) :
    ∀ (t : List CatNode), lookupChild t y = none →
      lookupChild (insertPath al (y :: ys) t) y =
        some (CatNode.mk y (aliasFor al y) (insertPath al ys []))
  | [], _ => by
    rw [insertPath_nil_tree, lookupChild_cons]
    simp [CatNode.key]
  | .mk nk na nc :: ns, h => by
    rw [lookupChild_cons] at h
    simp only [CatNode.key] at h
    by_cases hny : nk = y
    · rw [if_pos hny] at h
      cases h
    · rw [if_neg hny] at h
      rw [insertPath_cons_miss al y ys nk na nc ns hny, lookupChild_cons]
      simp only [CatNode.key, if_neg hny]
      exact lookup_insert_fresh al y ys ns h

/-- Inserting a path creates, at every strict-prefix position along the
path, a child carrying the next key of the path. -/
theorem hasChildKey_insert_self (al : List (String × String)) :
    ∀ (q : List String) (t : List CatNode) (m : Nat), m < q.length →
      hasChildKey (insertPath al q t) (q.take m) (q.getD m "") = true
  | [], _, m, hm => absurd hm (by simp)
  | y :: ys, t, 0, _ => by
    rw [List.take_zero, hasChildKey_nil_path]
    exact key_any_insert al y ys t
  | y :: ys, t, m + 1, hm => by
    have hm' : m < ys.length := by simpa using hm
    rw [show (y :: ys).take (m + 1) = y :: ys.take m by rfl,
      show (y :: ys).getD (m + 1) "" = ys.getD m "" by rfl,
      hasChildKey_cons_path]
    cases hl : lookupChild t y with
    | some n =>
      rw [lookup_insert_found al y ys t n hl]
      simp only [CatNode.children]
      exact hasChildKey_insert_self al ys n.children m hm'
    | none =>
      rw [lookup_insert_fresh al y ys t hl]
      simp only [CatNode.children]
      exact hasChildKey_insert_self al ys [] m hm'

theorem hasChildKey_foldl (al : List (String × String)) :
    ∀ (P : List (List String)) (t : List CatNode) (p : List String) (k : String),
      hasChildKey t p k = true →
      hasChildKey (List.foldl (fun t r => insertPath al r t) t P) p k = true
  | [], _, _, _, h => h
  | r :: P, t, p, k, h =>
    hasChildKey_foldl al P _ p k (hasChildKey_insert al r t p k h)

theorem mem_insert_key (al : List (String × String)) (y : String) (ys : List String) :
    ∀ (t : List CatNode) (x : CatNode), x ∈ insertPath al (y :: ys) t →
      x.key ∈ t.map CatNode.key ∨ x.key = y
  | [], x, h => by
    rw [insertPath_nil_tree] at h
    rcases List.mem_singleton.mp h with rfl
    exact Or.inr rfl
  | .mk nk na nc :: ns, x, h => by
    by_cases hny : nk = y
    · subst hny
      rw [insertPath_cons_found] at h
      rcases List.mem_cons.mp h with rfl | h1
      · exact Or.inr rfl
      · exact Or.inl (by simp; exact Or.inr ⟨x, h1, rfl⟩)
    · rw [insertPath_cons_miss al y ys nk na nc ns hny] at h
      rcases List.mem_cons.mp h with rfl | h1
      · exact Or.inl (by simp [CatNode.key])
      · rcases mem_insert_key al y ys ns x h1 with h2 | h2
        · exact Or.inl (by simp only [List.map_cons, List.mem_cons]; exact Or.inr h2)
        · exact Or.inr h2

theorem wfb_insert (al : List (String × String)) :
    ∀ (r : List String) (t : List CatNode), wfb t = true → wfb (insertPath al r t) = true
  | [], t, h => by simpa [insertPath] using h
  | y :: ys, [], _ => by
    rw [insertPath_nil_tree]
    simp only [wfb, Bool.and_eq_true]
    exact ⟨⟨by simp, wfb_insert al ys [] (by simp [wfb])⟩, by simp [wfb]⟩
  | y :: ys, .mk nk na nc :: ns, h => by
    have h' : (!(ns.any fun m => m.key == nk)) = true ∧ wfb nc = true ∧ wfb ns = true := by
      have hh := h
      simp only [wfb, Bool.and_eq_true] at hh
      exact ⟨hh.1.1, hh.1.2, hh.2⟩
    by_cases hny : nk = y
    · subst hny
      rw [insertPath_cons_found]
      simp only [wfb, Bool.and_eq_true]
      exact ⟨⟨h'.1, wfb_insert al ys nc h'.2.1⟩, h'.2.2⟩
    · rw [insertPath_cons_miss al y ys nk na nc ns hny]
      simp only [wfb, Bool.and_eq_true]
      refine ⟨⟨?_, h'.2.1⟩, wfb_insert al (y :: ys) ns h'.2.2⟩
      rw [Bool.not_eq_true']
      rw [List.any_eq_false]
      intro x hx
      rcases mem_insert_key al y ys ns x hx with h1 | h1
      · obtain ⟨m, hm, hmk⟩ := List.mem_map.mp h1
        have hh := h'.1
        rw [Bool.not_eq_true'] at hh
        rw [List.any_eq_false] at hh
        have := hh m hm
        rw [← hmk]
        exact this
      · rw [h1]
        simp only [beq_iff_eq]
        exact fun e => hny e.symm
termination_by r t => (r.length, t.length)

theorem wfb_foldl (al : List (String × String)) :
    ∀ (P : List (List String)) (t : List CatNode), wfb t = true →
      wfb (List.foldl (fun t r => insertPath al r t) t P) = true
  | [], _, h => h
  | r :: P, t, h => wfb_foldl al P _ (wfb_insert al r t h)

theorem wfb_build (P : List (List String)) (al : List (String × String)) :
    wfb (build_tree P al) = true :=
  wfb_foldl al P [] (by simp [wfb])

/-- Every path in the flattened form addresses a childless node: under the
per-level key-uniqueness invariant, the walk along a flattened path ends at
a leaf. -/
theorem flatten_leaf : ∀ (t : List CatNode) (pfx p : List String), wfb t = true →
    p ∈ flatten_tree t pfx → ∃ s, p = pfx ++ s ∧ childrenAt t s = some []
  | [], _, p, _, hmem => by simp [flatten_tree] at hmem
  | .mk k a c :: ns, pfx, p, hwf, hmem => by
    have hwf' : (!(ns.any fun m => m.key == k)) = true ∧ wfb c = true ∧ wfb ns = true := by
      have hh := hwf
      simp only [wfb, Bool.and_eq_true] at hh
      exact ⟨hh.1.1, hh.1.2, hh.2⟩
    simp only [flatten_tree, List.mem_append] at hmem
    rcases hmem with h1 | h2
    · by_cases hc : c.isEmpty
      · rw [if_pos hc] at h1
        rcases List.mem_singleton.mp h1 with rfl
        refine ⟨[k], rfl, ?_⟩
        have hcc : c = [] := by simpa using hc
        simp only [childrenAt, lookupChild_cons]
        simp only [CatNode.key, if_pos rfl, CatNode.children, hcc]
        rfl
      · rw [if_neg hc] at h1
        obtain ⟨s, hs, hleaf⟩ := flatten_leaf c (pfx ++ [k]) p hwf'.2.1 h1
        refine ⟨k :: s, by simpa [List.append_assoc] using hs, ?_⟩
        simp only [childrenAt, lookupChild_cons]
        simp only [CatNode.key, if_pos rfl, CatNode.children]
        exact hleaf
    · obtain ⟨s, hs, hleaf⟩ := flatten_leaf ns pfx p hwf'.2.2 h2
      cases s with
      | nil =>
        simp only [childrenAt] at hleaf
        obtain rfl := Option.some.inj hleaf
        simp [flatten_tree] at h2
      | cons x s' =>
        refine ⟨x :: s', hs, ?_⟩
        simp only [childrenAt, lookupChild_cons] at hleaf ⊢
        have hx : ¬ (CatNode.mk k a c).key = x := by
          simp only [CatNode.key]
          intro e
          subst e
          cases hlk : lookupChild ns k with
          | none => rw [hlk] at hleaf; cases hleaf
          | some m =>
            have hm := List.mem_of_find?_eq_some hlk
            have hmk : m.key = k := by
              have := List.find?_some hlk
              simpa using this
            have hh := hwf'.1
            rw [Bool.not_eq_true'] at hh
            rw [List.any_eq_false] at hh
            exact hh m hm (by simp [hmk])
        rw [if_neg hx]
        exact hleaf

theorem hasChildKey_nonempty (t : List CatNode) (s : List String) (k : String)
    (h : hasChildKey t s k = true) :
    ∃ cc, childrenAt t s = some cc ∧ cc ≠ [] := by
  unfold hasChildKey at h
  cases hc : childrenAt t s with
  | none => rw [hc] at h; cases h
  | some cc =>
    rw [hc] at h
    obtain ⟨x, hx, -⟩ := List.any_eq_true.mp h
    exact ⟨cc, rfl, List.ne_nil_of_mem hx⟩

/-- **C10.** If the input path list contains a path `p` that is a strict
proper prefix of another path `q` in the list, `fromPathList` absorbs `p`
into the tree as an internal node (the node reached by walking `p` has a
non-empty child list), and the path-list round trip silently drops `p`:
`flatten` emits only root-to-leaf walks, so `p` is absent from
`flatten(fromPathList(P))`. -/
theorem C10_prefix_absorbed (P : List (List String)) (al : List (String × String))
    (p q : List String) (hpP : p ∈ P) (hqP : q ∈ P)
    (hpre : q.take p.length = p) (hlt : p.length < q.length) :
    (∃ cc, childrenAt (build_tree P al) p = some cc ∧ cc ≠ []) ∧
      p ∉ flatten_tree (build_tree P al) [] := by
  clear hpP
  obtain ⟨P1, P2, rfl⟩ := List.append_of_mem hqP
  have hkey : hasChildKey (build_tree (P1 ++ q :: P2) al) (q.take p.length)
      (q.getD p.length "") = true := by
    unfold build_tree
    rw [List.foldl_append, List.foldl_cons]
    exact hasChildKey_foldl al P2 _ _ _
      (hasChildKey_insert_self al q _ p.length hlt)
  rw [hpre] at hkey
  obtain ⟨cc, hcc, hccne⟩ := hasChildKey_nonempty _ _ _ hkey
  refine ⟨⟨cc, hcc, hccne⟩, ?_⟩
  intro hmem
  obtain ⟨s, hs, hleaf⟩ := flatten_leaf _ [] p (wfb_build _ al) hmem
  rw [List.nil_append] at hs
  subst hs
  rw [hleaf] at hcc
  exact hccne (Option.some.inj hcc).symm

theorem C10_prefix_absorbed_witness :
    (∃ cc, childrenAt (build_tree [["a"], ["a", "b"]] []) ["a"] = some cc ∧ cc ≠ []) ∧
      ["a"] ∉ flatten_tree (build_tree [["a"], ["a", "b"]] []) [] :=
  C10_prefix_absorbed [["a"], ["a", "b"]] [] ["a"] ["a", "b"]
    (by simp) (by simp) (by simp) (by simp)

/-! ## C4: the nav markup round trip

First the regex model is evaluated on the hrefs that `build_nav_html`
generates: a skip lemma carries the scan over `category.html`, and one
anchor lemma per parameter shape consumes `?category=…` / `&subcategoryN=…`. -/

theorem isPrefixOf_append_self : ∀ (l m : List Char), l.isPrefixOf (l ++ m) = true := by
  intro l m
  induction l with
  | nil => simp [List.isPrefixOf]
  | cons a as ih => simp [List.isPrefixOf, ih]

theorem matchNameEq_category (rest : List Char) :
    matchNameEq ("category=".data ++ rest) = some ("category", 9) := by
  unfold matchNameEq
  rw [if_pos (isPrefixOf_append_self _ _)]

theorem matchNameEq_sub (ds rest : List Char)
    (hd : ∀ x ∈ ds, Char.isDigit x = true) :
    matchNameEq ("subcategory".data ++ (ds ++ '=' :: rest)) =
      some ("subcategory" ++ ⟨ds⟩, 11 + ds.length + 1) := by
  have hnc : ("category=".data.isPrefixOf ("subcategory".data ++ (ds ++ '=' :: rest))) = false := by
    simp [List.isPrefixOf]
  have hs : ("subcategory".data.isPrefixOf ("subcategory".data ++ (ds ++ '=' :: rest))) = true :=
    isPrefixOf_append_self _ _
  have hdrop : ("subcategory".data ++ (ds ++ '=' :: rest)).drop 11 = ds ++ '=' :: rest :=
    List.drop_left' rfl
  have htake : (("subcategory".data ++ (ds ++ '=' :: rest)).drop 11).takeWhile Char.isDigit
      = ds := by
    rw [hdrop, takeWhile_append_of_all hd, List.takeWhile_cons_of_neg (by decide),
      List.append_nil]
  have hdrop2 : ("subcategory".data ++ (ds ++ '=' :: rest)).drop (11 + ds.length)
      = '=' :: rest := by
    rw [show "subcategory".data ++ (ds ++ '=' :: rest)
        = ("subcategory".data ++ ds) ++ '=' :: rest by simp,
      List.drop_left' (by simp [List.length_append]; omega)]
  unfold matchNameEq
  rw [if_neg (by simp [hnc]), if_pos hs, htake]
  simp only [hdrop2]

theorem findallCat_cons_anchor (c : Char) (rest : List Char) (hc : c = '?' ∨ c = '&') :
    findallCat (c :: rest) =
      match matchNameEq rest with
      | some nk =>
        let w := (rest.drop nk.2).takeWhile wordChar
        if w.isEmpty then findallCat rest
        else (nk.1, ⟨w⟩) :: findallCat (rest.drop (nk.2 + w.length))
      | none => findallCat rest := by
  simp only [findallCat]
  rcases hc with rfl | rfl <;> rfl

theorem findallCat_cons_skip (c : Char) (l : List Char) (h1 : c ≠ '?') (h2 : c ≠ '&') :
    findallCat (c :: l) = findallCat l := by
  simp only [findallCat]
  rw [if_neg (by simp [h1, h2])]

theorem findallCat_skip_all : ∀ (pre l : List Char), (∀ c ∈ pre, c ≠ '?' ∧ c ≠ '&') →
    findallCat (pre ++ l) = findallCat l
  | [], _, _ => rfl
  | c :: pre, l, h => by
    rw [List.cons_append,
      findallCat_cons_skip c _ (h c (List.mem_cons_self c pre)).1
        (h c (List.mem_cons_self c pre)).2,
      findallCat_skip_all pre l (fun x hx => h x (List.mem_cons_of_mem c hx))]

theorem takeWhile_wordChar_amp (z : List Char) (hz : z = [] ∨ ∃ z', z = '&' :: z') :
    z.takeWhile wordChar = [] := by
  rcases hz with rfl | ⟨z', rfl⟩
  · rfl
  · exact List.takeWhile_cons_of_neg (by decide)

theorem findallCat_anchor_cat (c : Char) (v z : List Char) (hc : c = '?' ∨ c = '&')
    (hv : v ≠ []) (hvw : ∀ x ∈ v, wordChar x = true)
    (hz : z = [] ∨ ∃ z', z = '&' :: z') :
    findallCat (c :: ("category=".data ++ (v ++ z))) = ("category", ⟨v⟩) :: findallCat z := by
  have hd9 : ("category=".data ++ (v ++ z)).drop 9 = v ++ z := List.drop_left' rfl
  have hw : (("category=".data ++ (v ++ z)).drop 9).takeWhile wordChar = v := by
    rw [hd9, takeWhile_append_of_all hvw, takeWhile_wordChar_amp z hz, List.append_nil]
  have hre : ("category=".data ++ (v ++ z)).drop (9 + v.length) = z := by
    rw [show "category=".data ++ (v ++ z) = ("category=".data ++ v) ++ z by simp,
      List.drop_left' (by simp [List.length_append]; omega)]
  rw [findallCat_cons_anchor c _ hc, matchNameEq_category]
  simp only [hw, hre]
  rw [if_neg (by simp [hv])]

theorem findallCat_anchor_sub (c : Char) (ds v z : List Char) (hc : c = '?' ∨ c = '&')
    (hd : ∀ x ∈ ds, Char.isDigit x = true) (hv : v ≠ [])
    (hvw : ∀ x ∈ v, wordChar x = true) (hz : z = [] ∨ ∃ z', z = '&' :: z') :
    findallCat (c :: ("subcategory".data ++ (ds ++ '=' :: (v ++ z)))) =
      ("subcategory" ++ ⟨ds⟩, ⟨v⟩) :: findallCat z := by
  have hdv : ("subcategory".data ++ (ds ++ '=' :: (v ++ z))).drop (11 + ds.length + 1)
      = v ++ z := by
    rw [show "subcategory".data ++ (ds ++ '=' :: (v ++ z))
        = ("subcategory".data ++ ds ++ ['=']) ++ (v ++ z) by simp,
      List.drop_left' (by simp [List.length_append]; omega)]
  have hw : (("subcategory".data ++ (ds ++ '=' :: (v ++ z))).drop
      (11 + ds.length + 1)).takeWhile wordChar = v := by
    rw [hdv, takeWhile_append_of_all hvw, takeWhile_wordChar_amp z hz, List.append_nil]
  have hre : ("subcategory".data ++ (ds ++ '=' :: (v ++ z))).drop
      (11 + ds.length + 1 + v.length) = z := by
    rw [show "subcategory".data ++ (ds ++ '=' :: (v ++ z))
        = ("subcategory".data ++ ds ++ ['='] ++ v) ++ z by simp,
      List.drop_left' (by simp [List.length_append]; omega)]
  rw [findallCat_cons_anchor c _ hc, matchNameEq_sub ds (v ++ z) hd]
  simp only [hw, hre]
  rw [if_neg (by simp [hv])]

theorem data_ne_nil {v : String} (h : v ≠ "") : v.data ≠ [] := by
  intro hd
  exact h (by cases v; simp_all)

theorem ampJoin_shape (ps : List (List Char)) :
    ampJoin ps = [] ∨ ∃ z', ampJoin ps = '&' :: z' := by
  cases ps with
  | nil => exact Or.inl rfl
  | cons p ps => exact Or.inr ⟨p ++ ampJoin ps, rfl⟩

theorem intercalate_amp : ∀ (p : List Char) (ps : List (List Char)),
    List.intercalate ['&'] (p :: ps) = p ++ ampJoin ps
  | p, [] => by rw [intercalate_singleton]; simp [ampJoin]
  | p, q :: qs => by
    rw [intercalate_cons_cons, intercalate_amp q qs]
    simp [ampJoin]

theorem toString_digit (idx : Nat) (h : idx ≤ 9) :
    ∀ x ∈ (toString idx).data, Char.isDigit x = true := by
  interval_cases idx <;> decide

theorem findall_ampJoin : ∀ (ks : List String) (idx : Nat),
    (∀ s ∈ ks, s ≠ "" ∧ (∀ x ∈ s.data, wordChar x = true)) → 1 ≤ idx →
    idx + ks.length ≤ 10 →
    findallCat (ampJoin (subPartsL idx ks)) = expPairs idx ks
  | [], _, _, _, _ => by simp [subPartsL, ampJoin, findallCat, expPairs]
  | v :: vs, idx, h, h1, h2 => by
    have hv := h v (List.mem_cons_self v vs)
    simp only [List.length_cons] at h2
    simp only [subPartsL, if_pos hv.1, ampJoin]
    have hassoc : ("subcategory".data ++ (toString idx).data ++ '=' :: v.data)
        ++ ampJoin (subPartsL (idx + 1) vs)
        = "subcategory".data ++ ((toString idx).data ++ '=' ::
            (v.data ++ ampJoin (subPartsL (idx + 1) vs))) := by
      simp
    rw [hassoc, findallCat_anchor_sub '&' _ _ _ (Or.inr rfl)
      (toString_digit idx (by omega)) (data_ne_nil hv.1) hv.2 (ampJoin_shape _),
      mk_data, mk_data,
      findall_ampJoin vs (idx + 1) (fun s hs => h s (List.mem_cons_of_mem v hs))
        (by omega) (by omega)]
    rfl

theorem findall_navUrl (k0 : String) (ks : List String)
    (h0 : k0 ≠ "" ∧ (∀ x ∈ k0.data, wordChar x = true))
    (hks : ∀ s ∈ ks, s ≠ "" ∧ (∀ x ∈ s.data, wordChar x = true))
    (hlen : 1 + ks.length ≤ 10) :
    findallCat (navUrlL (k0 :: ks)) = ("category", k0) :: expPairs 1 ks := by
  simp only [navUrlL, List.tail_cons]
  rw [if_pos h0.1]
  simp only [List.singleton_append, List.isEmpty_cons, Bool.false_eq_true, if_false]
  rw [intercalate_amp, findallCat_skip_all "category.html".data _ (by decide)]
  have hsplit : ("category".data ++ '=' :: k0.data) ++ ampJoin (subPartsL 1 ks)
      = "category=".data ++ (k0.data ++ ampJoin (subPartsL 1 ks)) := by
    rw [show ("category=".data : List Char) = "category".data ++ ['='] from rfl]
    simp
  rw [hsplit, findallCat_anchor_cat '?' k0.data _ (Or.inl rfl) (data_ne_nil h0.1)
    h0.2 (ampJoin_shape _), mk_data,
    findall_ampJoin ks 1 hks (le_refl 1) hlen]

theorem listContains_append_self (p : Char) (ps rest : List Char) :
    listContains (p :: ps) ((p :: ps) ++ rest) = true := by
  rw [List.cons_append]
  simp only [listContains]
  rw [← List.cons_append, isPrefixOf_append_self]
  simp

theorem insPair_cons_of_not_lt (x y : String × String) (ys : List (String × String))
    (h : ¬ y.1 < x.1) : insPair x (y :: ys) = x :: y :: ys := by
  simp only [insPair, if_neg h]

theorem sortPairs_eq_self : ∀ (l : List (String × String)),
    List.Pairwise (fun a b => ¬ b.1 < a.1) l → sortPairs l = l
  | [], _ => rfl
  | x :: xs, h => by
    rw [List.pairwise_cons] at h
    simp only [sortPairs]
    rw [sortPairs_eq_self xs h.2]
    cases xs with
    | nil => rfl
    | cons y ys => exact insPair_cons_of_not_lt x y ys (h.1 y (List.mem_cons_self y ys))

theorem string_lt_iff (s t : String) : s < t ↔ s.data < t.data :=
  String.lt_iff_toList_lt

theorem sub_name_not_lt (i j : Nat) (h1 : 1 ≤ i) (h2 : i < j) (h3 : j ≤ 9) :
    ¬ ("subcategory" ++ toString j < "subcategory" ++ toString i) := by
  have h4 : i ≤ 8 := by omega
  interval_cases i <;> interval_cases j <;> (rw [string_lt_iff]; decide)

theorem cat_name_not_lt (j : Nat) (h1 : 1 ≤ j) (h3 : j ≤ 9) :
    ¬ ("subcategory" ++ toString j < "category") := by
  interval_cases j <;> (rw [string_lt_iff]; decide)

theorem expPairs_names : ∀ (ks : List String) (idx : Nat),
    ∀ pr ∈ expPairs idx ks, ∃ j, idx ≤ j ∧ j < idx + ks.length ∧
      pr.1 = "subcategory" ++ toString j
  | [], _, pr, h => by simp [expPairs] at h
  | v :: vs, idx, pr, h => by
    simp only [expPairs] at h
    rcases List.mem_cons.mp h with rfl | h'
    · exact ⟨idx, le_refl idx, by simp, rfl⟩
    · obtain ⟨j, hj1, hj2, hj3⟩ := expPairs_names vs (idx + 1) pr h'
      exact ⟨j, by omega, by simp only [List.length_cons]; omega, hj3⟩

theorem pairwise_expPairs : ∀ (ks : List String) (idx : Nat), 1 ≤ idx →
    idx + ks.length ≤ 10 →
    List.Pairwise (fun a b : String × String => ¬ b.1 < a.1) (expPairs idx ks)
  | [], _, _, _ => List.Pairwise.nil
  | v :: vs, idx, h1, h2 => by
    simp only [List.length_cons] at h2
    simp only [expPairs]
    refine List.Pairwise.cons ?_ (pairwise_expPairs vs (idx + 1) (by omega) (by omega))
    intro pr hpr
    obtain ⟨j, hj1, hj2, hj3⟩ := expPairs_names vs (idx + 1) pr hpr
    rw [hj3]
    exact sub_name_not_lt idx j h1 (by omega) (by omega)

theorem sortPairs_nav (k0 : String) (ks : List String) (hlen : 1 + ks.length ≤ 10) :
    sortPairs (("category", k0) :: expPairs 1 ks) = ("category", k0) :: expPairs 1 ks := by
  apply sortPairs_eq_self
  refine List.Pairwise.cons ?_ (pairwise_expPairs ks 1 (le_refl 1) (by omega))
  intro pr hpr
  obtain ⟨j, hj1, hj2, hj3⟩ := expPairs_names ks 1 pr hpr
  rw [hj3]
  exact cat_name_not_lt j hj1 (by omega)

theorem values_expPairs : ∀ (ks : List String) (idx : Nat),
    (expPairs idx ks).map (fun pr => pr.2) = ks
  | [], _ => rfl
  | v :: vs, idx => by
    simp only [expPairs, List.map_cons, values_expPairs vs (idx + 1)]

theorem link_path (K : List String) (hK : K ≠ [])
    (hvalid : ∀ s ∈ K, s ≠ "" ∧ (∀ x ∈ s.data, wordChar x = true))
    (hlen : K.length ≤ 10) :
    findallCat (navUrlL K) ≠ [] ∧
      (sortPairs (findallCat (navUrlL K))).map (fun pr => pr.2) = K := by
  obtain ⟨k0, ks, rfl⟩ := List.exists_cons_of_ne_nil hK
  simp only [List.length_cons] at hlen
  rw [findall_navUrl k0 ks (hvalid k0 (List.mem_cons_self k0 ks))
    (fun s hs => hvalid s (List.mem_cons_of_mem k0 hs)) (by omega)]
  refine ⟨by simp, ?_⟩
  rw [sortPairs_nav k0 ks (by omega), List.map_cons, values_expPairs]

theorem ne_empty_of_not_isEmpty {k : String} (h : (!k.isEmpty) = true) : k ≠ "" :=
  fun he => by
    rw [he, (String.isEmpty_iff "").mpr rfl] at h
    simp at h

theorem keysValid_parts {k a : String} {c ns : List CatNode}
    (h : keysValid (.mk k a c :: ns) = true) :
    (k ≠ "" ∧ (∀ x ∈ k.data, wordChar x = true)) ∧
      keysValid c = true ∧ keysValid ns = true := by
  simp only [keysValid, Bool.and_eq_true] at h
  obtain ⟨⟨⟨hk1, hk2⟩, hkc⟩, hkn⟩ := h
  exact ⟨⟨ne_empty_of_not_isEmpty hk1, fun x hx => List.all_eq_true.mp hk2 x hx⟩, hkc, hkn⟩

theorem leftLeaf_valid : ∀ (t : List CatNode), keysValid t = true → t ≠ [] →
    ∀ s ∈ leftLeaf t, s ≠ "" ∧ (∀ x ∈ s.data, wordChar x = true)
  | .mk k a c :: ns, hkv, _, s, hs => by
    obtain ⟨hk, hkc, -⟩ := keysValid_parts hkv
    simp only [leftLeaf] at hs
    by_cases hc : c.isEmpty
    · rw [if_pos hc] at hs
      rwa [List.mem_singleton.mp hs]
    · rw [if_neg hc] at hs
      rcases List.mem_cons.mp hs with rfl | hs'
      · exact hk
      · exact leftLeaf_valid c hkc (by simpa using hc) s hs'

theorem leftLeaf_len : ∀ (t : List CatNode), t ≠ [] → (leftLeaf t).length ≤ depthT t
  | .mk k a c :: ns, _ => by
    simp only [leftLeaf, depthT]
    have hm := Nat.le_max_left (1 + depthT c) (depthT ns)
    by_cases hc : c.isEmpty
    · rw [if_pos hc]
      simp only [List.length_singleton]
      omega
    · rw [if_neg hc]
      simp only [List.length_cons]
      have := leftLeaf_len c (by simpa using hc)
      omega

theorem leftLeaf_mem_flatten : ∀ (t : List CatNode), t ≠ [] →
    leftLeaf t ∈ flatten_tree t []
  | .mk k a c :: ns, _ => by
    simp only [leftLeaf, flatten_tree]
    by_cases hc : c.isEmpty
    · rw [if_pos hc, if_pos hc]
      simp
    · rw [if_neg hc, if_neg hc]
      refine List.mem_append_left _ ?_
      simp only [List.nil_append]
      rw [flatten_tree_map_pfx c [k]]
      exact List.mem_map_of_mem (fun s => [k] ++ s)
        (leftLeaf_mem_flatten c (by simpa using hc))

theorem firstLink_ast : ∀ (t : List CatNode) (pfx : List String), t ≠ [] →
    firstLink (build_nav_ast t pfx) = some (navUrl (pfx ++ leftLeaf t))
  | .mk k a c :: ns, pfx, _ => by
    simp only [build_nav_ast, leftLeaf]
    by_cases hc : c.isEmpty
    · rw [if_pos hc, if_pos hc]
      simp [firstLink]
    · rw [if_neg hc, if_neg hc]
      simp only [firstLink]
      rw [firstLink_ast c (pfx ++ [k]) (by simpa using hc)]
      simp

theorem navUrl_data (K : List String) : (navUrl K).data = navUrlL K := rfl

theorem navUrlL_shape (K : List String) : ∃ suf, navUrlL K = "category.html".data ++ suf :=
  ⟨_, rfl⟩

theorem listContains_navUrl (K : List String) :
    listContains "category.html".data (navUrlL K) = true := by
  obtain ⟨suf, hs⟩ := navUrlL_shape K
  rw [hs]
  exact listContains_append_self 'c' "ategory.html".data suf

/-- The heart of the round trip: under non-blank URL-safe keys and depth at
most 10, walking the rendered menu recovers exactly the flattened paths,
each prefixed by the keys above the subtree. -/
theorem walk_ast : ∀ (t : List CatNode) (pfx : List String), keysValid t = true →
    (∀ s ∈ pfx, s ≠ "" ∧ (∀ x ∈ s.data, wordChar x = true)) →
    pfx.length + depthT t ≤ 10 →
    ∀ p, p ∈ walk_menu (build_nav_ast t pfx) ↔ ∃ s ∈ flatten_tree t [], p = pfx ++ s
  | [], pfx, _, _, _, p => by
    simp [build_nav_ast, walk_menu, flatten_tree]
  | .mk k a c :: ns, pfx, hkv, hpfx, hd, p => by
    obtain ⟨hk, hkc, hkn⟩ := keysValid_parts hkv
    simp only [depthT] at hd
    have hmaxl := Nat.le_max_left (1 + depthT c) (depthT ns)
    have hmaxr := Nat.le_max_right (1 + depthT c) (depthT ns)
    have hdns : pfx.length + depthT ns ≤ 10 := by omega
    have hpfxk : ∀ s ∈ pfx ++ [k], s ≠ "" ∧ (∀ x ∈ s.data, wordChar x = true) := by
      intro s hs
      rcases List.mem_append.mp hs with h | h
      · exact hpfx s h
      · rwa [List.mem_singleton.mp h]
    have hdc : (pfx ++ [k]).length + depthT c ≤ 10 := by
      simp only [List.length_append, List.length_singleton]
      omega
    have ihns := walk_ast ns pfx hkn hpfx hdns p
    simp only [build_nav_ast]
    by_cases hc : c.isEmpty
    · -- leaf: the node renders as a single category link
      rw [if_pos hc]
      have hlp := link_path (pfx ++ [k]) (by simp) hpfxk
        (by simp only [List.length_append, List.length_singleton]; omega)
      simp only [walk_menu, navUrl_data]
      rw [if_pos (listContains_navUrl (pfx ++ [k])),
        if_neg (by simpa [List.isEmpty_iff] using hlp.1), hlp.2]
      simp only [flatten_tree, if_pos hc, List.nil_append, List.mem_append,
        List.mem_singleton, List.mem_cons, List.not_mem_nil, false_or, or_false]
      rw [ihns]
      constructor
      · rintro (rfl | ⟨s, hsF, rfl⟩)
        · exact ⟨[k], Or.inl rfl, rfl⟩
        · exact ⟨s, Or.inr hsF, rfl⟩
      · rintro ⟨s, hs, rfl⟩
        rcases hs with rfl | hsF
        · exact Or.inl rfl
        · exact Or.inr ⟨s, hsF, rfl⟩
    · -- group: the node renders as a submenu whose first descendant link is
      -- the leftmost leaf of the subtree
      rw [if_neg hc]
      have hcne : c ≠ [] := by simpa using hc
      have ihc := walk_ast c (pfx ++ [k]) hkc hpfxk hdc p
      have hll := leftLeaf_len c hcne
      have hlp := link_path ((pfx ++ [k]) ++ leftLeaf c) (by simp)
        (by
          intro s hs
          rcases List.mem_append.mp hs with h | h
          · exact hpfxk s h
          · exact leftLeaf_valid c hkc hcne s h)
        (by
          simp only [List.length_append, List.length_singleton]
          omega)
      simp only [walk_menu, navUrl_data]
      rw [firstLink_ast c (pfx ++ [k]) hcne]
      simp only [navUrl_data]
      rw [if_pos (listContains_navUrl ((pfx ++ [k]) ++ leftLeaf c)),
        if_neg (by simpa [List.isEmpty_iff] using hlp.1), hlp.2]
      simp only [flatten_tree, if_neg hc, List.nil_append, List.mem_append,
        List.mem_singleton, List.mem_cons, List.not_mem_nil, false_or, or_false]
      rw [ihns, flatten_tree_map_pfx c [k]]
      constructor
      · rintro ((rfl | h) | h)
        · refine ⟨[k] ++ leftLeaf c, Or.inl ?_, by simp⟩
          exact List.mem_map_of_mem (fun s => [k] ++ s) (leftLeaf_mem_flatten c hcne)
        · obtain ⟨s, hsF, rfl⟩ := ihc.mp h
          exact ⟨[k] ++ s, Or.inl (List.mem_map_of_mem (fun s => [k] ++ s) hsF),
            by simp⟩
        · obtain ⟨s, hsF, rfl⟩ := h
          exact ⟨s, Or.inr hsF, rfl⟩
      · rintro ⟨s, hs, rfl⟩
        rcases hs with hsc | hsF
        · obtain ⟨s', hs', rfl⟩ := List.mem_map.mp hsc
          exact Or.inl (Or.inr (ihc.mpr ⟨s', hs', by simp⟩))
        · exact Or.inr ⟨s, hsF, rfl⟩

/-- C4 counterexample: the claim quantifies over every tree built from valid
paths, and blank catch-all keys are valid (`menu_editor.py` supports and
validates them).  For the tree built from the single path `("a", "")`,
`flatten` returns `[("a", "")]`, but the rendered link for that leaf is
`category.html?category=a` — the blank key contributes no parameter — so
extraction returns `("a",)` (twice: once for the submenu's `<li>` via its
first descendant link, once for the leaf's own `<li>`), and the two path
sets differ. -/
theorem C4_nav_cex :
    flatten_tree (build_tree [["a", ""]] []) [] = [["a", ""]] ∧
      walk_menu (build_nav_ast (build_tree [["a", ""]] []) []) = [["a"], ["a"]] ∧
      ¬ (["a", ""] ∈ walk_menu (build_nav_ast (build_tree [["a", ""]] []) []) ↔
          ["a", ""] ∈ flatten_tree (build_tree [["a", ""]] []) []) := by
  have hT : build_tree [["a", ""]] []
      = [.mk "a" (aliasFor [] "a") [.mk "" (aliasFor [] "") []]] := by
    simp [build_tree, insertPath]
  have hflat : flatten_tree (build_tree [["a", ""]] []) [] = [["a", ""]] := by
    rw [hT]
    simp [flatten_tree]
  have hfind : findallCat (navUrlL ["a", ""]) = [("category", "a")] := by
    rw [show navUrlL ["a", ""] = "category.html?category=a".data by decide,
      show ("category.html?category=a".data : List Char)
        = "category.html".data ++ ('?' :: ("category=".data ++ ("a".data ++ []))) by decide,
      findallCat_skip_all _ _ (by decide),
      findallCat_anchor_cat '?' "a".data [] (Or.inl rfl) (by decide)
        (by decide) (Or.inl rfl), mk_data]
    simp [findallCat]
  have hast : build_nav_ast (build_tree [["a", ""]] []) []
      = [.group (aliasFor [] "a") [.link (navUrl ["a", ""]) (aliasFor [] "")]] := by
    rw [hT]
    simp [build_nav_ast]
  have hwalk : walk_menu (build_nav_ast (build_tree [["a", ""]] []) [])
      = [["a"], ["a"]] := by
    rw [hast]
    have hlc : listContains ['c', 'a', 't', 'e', 'g', 'o', 'r', 'y', '.', 'h', 't', 'm', 'l']
        (navUrlL ["a", ""]) = true := listContains_navUrl ["a", ""]
    simp [walk_menu, firstLink, navUrl_data, hfind, hlc, sortPairs, insPair]
  refine ⟨hflat, hwalk, ?_⟩
  rw [hflat, hwalk]
  decide

/-- C4: the round trip `extract(render(tree)) = flatten(tree)` as claimed
fails for trees with catch-all (blank) keys — see `C4_nav_cex` — but holds
in path-set terms whenever every key in the tree is non-blank and URL-safe
(word characters or `-`) and the tree is at most 10 levels deep (at depth
11 the parameter `subcategory10` sorts before `subcategory2` and the
extractor would permute the path): a path is extracted from the rendered
nav markup exactly when `flatten` returns it. -/
theorem C4_nav_roundtrip (T : List CatNode) (hkv : keysValid T = true)
    (hd : depthT T ≤ 10) (p : List String) :
    p ∈ walk_menu (build_nav_ast T []) ↔ p ∈ flatten_tree T [] := by
  have h := walk_ast T [] hkv (by simp) (by simpa using hd) p
  simpa [eq_comm] using h

theorem C4_nav_roundtrip_witness :
    keysValid [CatNode.mk "a" "A" []] = true ∧ depthT [CatNode.mk "a" "A" []] ≤ 10 ∧
      ((["a"] : List String) ∈ walk_menu (build_nav_ast [CatNode.mk "a" "A" []] []) ↔
        ["a"] ∈ flatten_tree [CatNode.mk "a" "A" []] []) :=
  ⟨by simp only [keysValid]; decide, by simp only [depthT]; decide,
    C4_nav_roundtrip [CatNode.mk "a" "A" []] (by simp only [keysValid]; decide)
      (by simp only [depthT]; decide) ["a"]⟩

end UnifiedShopify
